import Mathlib

/-!
Verification of the permutation-analysis core of `scripts/music/export_structures.py`.

The Python functions are embedded shallowly:

* machine integers are `Nat` (all quantities here are small nonnegative ints in
  Python) and signed distances are `Int`;
* Python exceptions (`ValueError` from `list.index`, `IndexError` from
  out-of-range list assignment / subscript) are modelled by `Option`:
  a raised exception is `none`;
* Python's `while current not in visited` loop in `permutation_cycles`
  terminates on the valid inputs the script feeds it (genuine permutations)
  after at most `len(perm)` iterations, so it is embedded with an explicit
  fuel of `perm.length + 1`, which is never exhausted on those inputs;
* `itertools.permutations(range(n))` enumerates the permutations of
  `0..n-1` in lexicographic order; `lexPerms` below reproduces exactly that
  order.
-/

/-- Embedding of `count_inversions` (`export_structures.py`):
`for i in range(length): for j in range(i+1, length): if perm[i] > perm[j]`.
`range(i+1, length)` is `List.range' (i+1) (length - (i+1))`. -/
def count_inversions (perm : List ℕ) : ℕ :=
  ((List.range perm.length).map (fun i =>
    ((List.range' (i + 1) (perm.length - (i + 1))).countP
      (fun j => decide (perm.getD j 0 < perm.getD i 0))))).sum

/-- Embedding of `permutation_parity`: the same inversion-counting double loop
as `count_inversions` (the Python source duplicates the loop), then
`"even"` if the count is even else `"odd"`. -/
def permutation_parity (perm : List ℕ) : String :=
  let inversions :=
    ((List.range perm.length).map (fun i =>
      ((List.range' (i + 1) (perm.length - (i + 1))).countP
        (fun j => decide (perm.getD j 0 < perm.getD i 0))))).sum
  if inversions % 2 = 0 then "even" else "odd"

/-- Embedding of `permutation_sign`. -/
def permutation_sign (parity : String) : ℤ :=
  if parity = "even" then 1 else -1

/-- Embedding of `cycle_signature_from_cycles`: cycle lengths sorted
descending, joined with a dash. -/
def cycle_signature_from_cycles (cycles : List (List ℕ)) : String :=
  let lengths := (cycles.map List.length).insertionSort (fun a b => b ≤ a)
  String.intercalate "-" (lengths.map toString)

/-- One step of the permutation: `current = perm[current]`. -/
def pstep (perm : List ℕ) (x : ℕ) : ℕ := perm.getD x 0

/-- Embedding of the inner `while current not in visited` loop of
`permutation_cycles`.  Returns the recorded cycle and the updated visited
list.  The fuel argument only bounds the iteration count; with fuel
`perm.length + 1` it is never exhausted on a genuine permutation. -/
def cycleWalk (perm : List ℕ) : ℕ → List ℕ → ℕ → List ℕ × List ℕ
  | 0, visited, _ => ([], visited)
  | fuel + 1, visited, current =>
    if current ∈ visited then ([], visited)
    else
      let r := cycleWalk perm fuel (visited ++ [current]) (pstep perm current)
      (current :: r.1, r.2)

/-- Embedding of the outer `for start in range(len(perm))` loop of
`permutation_cycles`, carrying (cycles so far, visited). -/
def cycleScan (perm : List ℕ) : List ℕ → List (List ℕ) × List ℕ → List (List ℕ) × List ℕ
  | [], acc => acc
  | start :: rest, (cycles, visited) =>
    if start ∈ visited then cycleScan perm rest (cycles, visited)
    else
      let r := cycleWalk perm (perm.length + 1) visited start
      cycleScan perm rest (cycles ++ [r.1], r.2)

/-- Embedding of `permutation_cycles`. -/
def permutation_cycles (perm : List ℕ) : List (List ℕ) :=
  (cycleScan perm (List.range perm.length) ([], [])).1

/-! ### Facts about valid permutations (one-line form lists) -/

/-- A valid one-line form of a permutation of `0..n-1` is a list that is a
permutation (as a multiset) of `List.range n`. -/
def IsPermList (n : ℕ) (perm : List ℕ) : Prop := List.Perm perm (List.range n)

theorem IsPermList.toPerm {n : ℕ} {perm : List ℕ} (h : IsPermList n perm) :
    List.Perm perm (List.range n) := h

instance (n : ℕ) (perm : List ℕ) : Decidable (IsPermList n perm) :=
  inferInstanceAs (Decidable (List.Perm perm (List.range n)))

theorem IsPermList.length_eq {n : ℕ} {perm : List ℕ} (h : IsPermList n perm) :
    perm.length = n := by
  have := List.Perm.length_eq h.toPerm
  simpa using this

theorem IsPermList.nodup {n : ℕ} {perm : List ℕ} (h : IsPermList n perm) :
    perm.Nodup :=
  (List.Perm.nodup_iff h.toPerm).mpr (List.nodup_range n)

theorem IsPermList.mem_iff {n : ℕ} {perm : List ℕ} (h : IsPermList n perm) {x : ℕ} :
    x ∈ perm ↔ x < n := by
  rw [List.Perm.mem_iff h.toPerm, List.mem_range]

theorem IsPermList.getD_eq_getElem {n perm} (h : IsPermList n perm) {x : ℕ}
    (hx : x < n) : ∃ hlt : x < perm.length, perm.getD x 0 = perm[x] := by
  have hlt : x < perm.length := h.length_eq ▸ hx
  exact ⟨hlt, List.getD_eq_getElem perm 0 hlt⟩

theorem pstep_lt {n perm} (h : IsPermList n perm) {x : ℕ} (hx : x < n) :
    pstep perm x < n := by
  obtain ⟨hlt, hg⟩ := h.getD_eq_getElem hx
  have : perm[x] ∈ perm := perm.getElem_mem hlt
  rw [pstep, hg]
  exact h.mem_iff.mp this

theorem pstep_inj {n perm} (h : IsPermList n perm) {x y : ℕ}
    (hx : x < n) (hy : y < n) (hxy : pstep perm x = pstep perm y) : x = y := by
  obtain ⟨hltx, hgx⟩ := h.getD_eq_getElem hx
  obtain ⟨hlty, hgy⟩ := h.getD_eq_getElem hy
  rw [pstep, pstep, hgx, hgy] at hxy
  exact (List.Nodup.getElem_inj_iff h.nodup).mp hxy

theorem iter_lt {n perm} (h : IsPermList n perm) {x : ℕ} (hx : x < n) (k : ℕ) :
    (pstep perm)^[k] x < n := by
  induction k generalizing x with
  | zero => simpa using hx
  | succ k ih =>
    rw [Function.iterate_succ_apply]
    exact ih (pstep_lt h hx)

theorem iter_inj {n perm} (h : IsPermList n perm) {x y : ℕ} (k : ℕ)
    (hx : x < n) (hy : y < n) (hxy : (pstep perm)^[k] x = (pstep perm)^[k] y) :
    x = y := by
  induction k generalizing x y with
  | zero => simpa using hxy
  | succ k ih =>
    rw [Function.iterate_succ_apply] at hxy
    exact pstep_inj h hx hy (ih (pstep_lt h hx) (pstep_lt h hy) hxy)

theorem exists_period {n perm} (h : IsPermList n perm) {s : ℕ} (hs : s < n) :
    ∃ m, m < perm.length ∧ (pstep perm)^[m + 1] s = s := by
  have hmaps : ∀ k ∈ Finset.range (n + 1), (pstep perm)^[k] s ∈ Finset.range n := by
    intro k _
    exact Finset.mem_range.mpr (iter_lt h hs k)
  have hcard : (Finset.range n).card < (Finset.range (n + 1)).card := by
    simp
  obtain ⟨i, hi, j, hj, hne, heq⟩ :=
    Finset.exists_ne_map_eq_of_card_lt_of_maps_to hcard hmaps
  rw [Finset.mem_range] at hi hj
  rcases Nat.lt_or_ge i j with hij | hij
  · obtain ⟨d, rfl⟩ := Nat.exists_eq_add_of_lt hij
    rw [show i + d + 1 = i + (d + 1) by omega, Function.iterate_add_apply] at heq
    have : (pstep perm)^[d + 1] s = s :=
      iter_inj h i (iter_lt h hs (d + 1)) hs heq.symm
    exact ⟨d, by rw [h.length_eq]; omega, this⟩
  · have hji : j < i := hij.lt_of_ne (fun e => hne e.symm)
    obtain ⟨d, rfl⟩ := Nat.exists_eq_add_of_lt hji
    rw [show j + d + 1 = j + (d + 1) by omega, Function.iterate_add_apply] at heq
    have : (pstep perm)^[d + 1] s = s :=
      iter_inj h j (iter_lt h hs (d + 1)) hs heq
    exact ⟨d, by rw [h.length_eq]; omega, this⟩

/-- Minimal positive period of `s` under `current = perm[current]`. -/
def perOf (perm : List ℕ) (s : ℕ) : ℕ :=
  if h : ∃ m, m < perm.length ∧ (pstep perm)^[m + 1] s = s then Nat.find h + 1 else 1

theorem perOf_pos (perm : List ℕ) (s : ℕ) : 0 < perOf perm s := by
  unfold perOf
  split <;> omega

theorem perOf_iterate {n perm} (h : IsPermList n perm) {s : ℕ} (hs : s < n) :
    (pstep perm)^[perOf perm s] s = s := by
  unfold perOf
  rcases em (∃ m, m < perm.length ∧ (pstep perm)^[m + 1] s = s) with hex | hex
  · rw [dif_pos hex]
    exact (Nat.find_spec hex).2
  · exact absurd (exists_period h hs) hex

theorem perOf_le {n perm} (h : IsPermList n perm) {s : ℕ} (hs : s < n) :
    perOf perm s ≤ n := by
  unfold perOf
  rcases em (∃ m, m < perm.length ∧ (pstep perm)^[m + 1] s = s) with hex | hex
  · rw [dif_pos hex]
    obtain ⟨m, hm, hms⟩ := exists_period h hs
    have hfind : Nat.find hex ≤ m := Nat.find_min' hex ⟨hm, hms⟩
    have := h.length_eq
    omega
  · exact absurd (exists_period h hs) hex

theorem perOf_min {n perm} (h : IsPermList n perm) {s : ℕ} (hs : s < n) {k : ℕ}
    (hk0 : 0 < k) (hk : k < perOf perm s) : (pstep perm)^[k] s ≠ s := by
  unfold perOf at hk
  rcases em (∃ m, m < perm.length ∧ (pstep perm)^[m + 1] s = s) with hex | hex
  · rw [dif_pos hex] at hk
    intro hiter
    have hfs := (Nat.find_spec hex).1
    have hklen : k - 1 < perm.length := by omega
    have := Nat.find_min hex (m := k - 1) (by omega)
    exact this ⟨hklen, by rw [show k - 1 + 1 = k by omega]; exact hiter⟩
  · exact absurd (exists_period h hs) hex

/-- The orbit of `s` under `current = perm[current]`, in traversal order. -/
def orbitList (perm : List ℕ) (s : ℕ) : List ℕ :=
  (List.range (perOf perm s)).map (fun k => (pstep perm)^[k] s)

theorem orbitList_length (perm : List ℕ) (s : ℕ) :
    (orbitList perm s).length = perOf perm s := by
  simp [orbitList]

theorem orbitList_ne_nil (perm : List ℕ) (s : ℕ) : orbitList perm s ≠ [] := by
  have h1 := orbitList_length perm s
  have h2 := perOf_pos perm s
  intro hnil
  rw [hnil] at h1
  simp at h1
  omega

theorem orbitList_getD (perm : List ℕ) (s : ℕ) {k : ℕ} (hk : k < perOf perm s) :
    (orbitList perm s).getD k 0 = (pstep perm)^[k] s := by
  have hlen : k < (orbitList perm s).length := by rw [orbitList_length]; exact hk
  rw [List.getD_eq_getElem _ _ hlen]
  simp [orbitList]

theorem orbitList_headD (perm : List ℕ) (s : ℕ) : (orbitList perm s).headD 0 = s := by
  have h2 := perOf_pos perm s
  obtain ⟨m, hm⟩ := Nat.exists_eq_add_of_lt h2
  rw [orbitList, hm, show 0 + m + 1 = m + 1 by omega, List.range_succ_eq_map]
  simp

/-- Iteration indices can be reduced modulo the period. -/
theorem iter_mod {n perm} (h : IsPermList n perm) {s : ℕ} (hs : s < n) (k : ℕ) :
    (pstep perm)^[k] s = (pstep perm)^[k % perOf perm s] s := by
  conv_lhs => rw [show k = perOf perm s * (k / perOf perm s) + k % perOf perm s from
    (Nat.div_add_mod k (perOf perm s)).symm]
  rw [Nat.add_comm, Function.iterate_add_apply]
  congr 1
  generalize k / perOf perm s = q
  induction q with
  | zero => simp
  | succ q ih =>
    rw [Nat.mul_succ, Function.iterate_add_apply, perOf_iterate h hs, ih]

theorem mem_orbitList_iff {n perm} (h : IsPermList n perm) {s : ℕ} (hs : s < n)
    {x : ℕ} : x ∈ orbitList perm s ↔ ∃ k, (pstep perm)^[k] s = x := by
  constructor
  · intro hx
    obtain ⟨k, hk, rfl⟩ := List.mem_map.mp hx
    exact ⟨k, rfl⟩
  · rintro ⟨k, rfl⟩
    rw [iter_mod h hs k]
    exact List.mem_map.mpr ⟨k % perOf perm s,
      List.mem_range.mpr (Nat.mod_lt _ (perOf_pos perm s)), rfl⟩

theorem orbitList_nodup {n perm} (h : IsPermList n perm) {s : ℕ} (hs : s < n) :
    (orbitList perm s).Nodup := by
  rw [orbitList]
  refine List.Nodup.map_on ?_ (List.nodup_range _)
  intro a ha b hb hab
  rw [List.mem_range] at ha hb
  by_contra hne
  rcases Nat.lt_or_ge a b with hlt | hge
  · obtain ⟨d, rfl⟩ := Nat.exists_eq_add_of_lt hlt
    rw [show a + d + 1 = a + (d + 1) by omega, Function.iterate_add_apply] at hab
    have := iter_inj h a (iter_lt h hs (d + 1)) hs hab.symm
    exact perOf_min h hs (k := d + 1) (by omega) (by omega) this
  · have hlt : b < a := hge.lt_of_ne (fun e => hne e.symm)
    obtain ⟨d, rfl⟩ := Nat.exists_eq_add_of_lt hlt
    rw [show b + d + 1 = b + (d + 1) by omega, Function.iterate_add_apply] at hab
    have := iter_inj h b (iter_lt h hs (d + 1)) hs hab
    exact perOf_min h hs (k := d + 1) (by omega) (by omega) this

theorem orbitList_mem_lt {n perm} (h : IsPermList n perm) {s : ℕ} (hs : s < n)
    {x : ℕ} (hx : x ∈ orbitList perm s) : x < n := by
  obtain ⟨k, rfl⟩ := (mem_orbitList_iff h hs).mp hx
  exact iter_lt h hs k

/-- Reachability by iterating `current = perm[current]`. -/
def Reach (perm : List ℕ) (s x : ℕ) : Prop := ∃ k, (pstep perm)^[k] s = x

theorem Reach.refl (perm : List ℕ) (s : ℕ) : Reach perm s s := ⟨0, rfl⟩

theorem Reach.trans {perm : List ℕ} {s t u : ℕ} (h1 : Reach perm s t)
    (h2 : Reach perm t u) : Reach perm s u := by
  obtain ⟨k1, rfl⟩ := h1
  obtain ⟨k2, rfl⟩ := h2
  exact ⟨k2 + k1, (Function.iterate_add_apply _ k2 k1 s)⟩

theorem Reach.symm {n perm} (h : IsPermList n perm) {s x : ℕ} (hs : s < n)
    (hr : Reach perm s x) : Reach perm x s := by
  obtain ⟨k, rfl⟩ := hr
  rw [iter_mod h hs k]
  set r := k % perOf perm s with hrdef
  have hrlt : r < perOf perm s := Nat.mod_lt _ (perOf_pos perm s)
  refine ⟨perOf perm s - r, ?_⟩
  rw [← Function.iterate_add_apply, show perOf perm s - r + r = perOf perm s by omega]
  exact perOf_iterate h hs

theorem reach_lt {n perm} (h : IsPermList n perm) {s x : ℕ} (hs : s < n)
    (hr : Reach perm s x) : x < n := by
  obtain ⟨k, rfl⟩ := hr
  exact iter_lt h hs k

theorem mem_orbitList_iff_reach {n perm} (h : IsPermList n perm) {s : ℕ}
    (hs : s < n) {x : ℕ} : x ∈ orbitList perm s ↔ Reach perm s x :=
  mem_orbitList_iff h hs

/-- Orbits of mutually reachable points coincide. -/
theorem orbitList_congr_mem {n perm} (h : IsPermList n perm) {s t : ℕ}
    (hs : s < n) (ht : t < n) (hr : Reach perm s t) {x : ℕ} :
    x ∈ orbitList perm t → x ∈ orbitList perm s := by
  intro hx
  rw [mem_orbitList_iff_reach h ht] at hx
  rw [mem_orbitList_iff_reach h hs]
  exact hr.trans hx

/-- Characterization of the inner while loop: started at a point of a fresh
orbit it records exactly that orbit, in traversal order. -/
theorem cycleWalk_spec {n perm} (h : IsPermList n perm) {s : ℕ} (hs : s < n)
    (v : List ℕ) (hdisj : ∀ x, x ∈ orbitList perm s → x ∉ v) :
    ∀ fuel j, j ≤ perOf perm s → perOf perm s - j < fuel →
      cycleWalk perm fuel (v ++ (List.range j).map (fun k => (pstep perm)^[k] s))
          ((pstep perm)^[j] s) =
        ((List.range (perOf perm s - j)).map (fun k => (pstep perm)^[j + k] s),
          v ++ orbitList perm s) := by
  intro fuel
  induction fuel with
  | zero => omega
  | succ fuel ih =>
    intro j hj hfuel
    rcases Nat.eq_or_lt_of_le hj with heq | hlt
    · -- j = perOf: current = s is already in the visited prefix
      subst heq
      rw [cycleWalk]
      have hmem : (pstep perm)^[perOf perm s] s ∈
          v ++ (List.range (perOf perm s)).map (fun k => (pstep perm)^[k] s) := by
        rw [perOf_iterate h hs]
        refine List.mem_append.mpr (Or.inr ?_)
        exact List.mem_map.mpr ⟨0, List.mem_range.mpr (perOf_pos perm s), rfl⟩
      rw [if_pos hmem]
      simp [orbitList]
    · -- j < perOf: current is fresh, the loop records it and advances
      rw [cycleWalk]
      have hcur_orb : (pstep perm)^[j] s ∈ orbitList perm s :=
        (mem_orbitList_iff h hs).mpr ⟨j, rfl⟩
      have hnotv : (pstep perm)^[j] s ∉ v := hdisj _ hcur_orb
      have hnotpre : (pstep perm)^[j] s ∉
          (List.range j).map (fun k => (pstep perm)^[k] s) := by
        intro hmem
        obtain ⟨i, hi, hieq⟩ := List.mem_map.mp hmem
        rw [List.mem_range] at hi
        obtain ⟨d, rfl⟩ := Nat.exists_eq_add_of_lt hi
        rw [show i + d + 1 = i + (d + 1) by omega, Function.iterate_add_apply] at hieq
        have := iter_inj h i (iter_lt h hs (d + 1)) hs hieq.symm
        exact perOf_min h hs (k := d + 1) (by omega) (by omega) this
      have hnot : (pstep perm)^[j] s ∉
          v ++ (List.range j).map (fun k => (pstep perm)^[k] s) := by
        intro hmem
        rcases List.mem_append.mp hmem with hmv | hmp
        · exact hnotv hmv
        · exact hnotpre hmp
      rw [if_neg hnot]
      have hrecast :
          v ++ (List.range j).map (fun k => (pstep perm)^[k] s) ++ [(pstep perm)^[j] s] =
          v ++ (List.range (j + 1)).map (fun k => (pstep perm)^[k] s) := by
        rw [List.append_assoc, List.range_succ, List.map_append]
        simp
      have hstep : pstep perm ((pstep perm)^[j] s) = (pstep perm)^[j + 1] s := by
        rw [← Function.iterate_succ_apply' (pstep perm) j s]
      rw [hrecast, hstep]
      rw [ih (j + 1) (by omega) (by omega)]
      have hrange : (List.range (perOf perm s - j)).map (fun k => (pstep perm)^[j + k] s) =
          (pstep perm)^[j] s ::
            (List.range (perOf perm s - (j + 1))).map (fun k => (pstep perm)^[j + 1 + k] s) := by
        rw [show perOf perm s - j = (perOf perm s - (j + 1)) + 1 by omega,
          List.range_succ_eq_map, List.map_cons, List.map_map]
        rw [Nat.add_zero]
        congr 1
        apply List.map_congr_left
        intro k _
        have hidx : j + Nat.succ k = j + 1 + k := by omega
        simp [Function.comp, hidx]
      rw [hrange]

theorem cycleWalk_orbit {n perm} (h : IsPermList n perm) {s : ℕ} (hs : s < n)
    (v : List ℕ) (hdisj : ∀ x, x ∈ orbitList perm s → x ∉ v) :
    cycleWalk perm (perm.length + 1) v s = (orbitList perm s, v ++ orbitList perm s) := by
  have hfuel : perOf perm s - 0 < perm.length + 1 := by
    have := perOf_le h hs
    have := h.length_eq
    omega
  have := cycleWalk_spec h hs v hdisj (perm.length + 1) 0 (Nat.zero_le _) hfuel
  simpa [orbitList] using this

theorem cycleScan_spec {n perm} (h : IsPermList n perm) :
    ∀ (cnt s : ℕ) (cycles : List (List ℕ)) (visited : List ℕ),
      s + cnt = n →
      visited = cycles.flatten →
      (∀ c ∈ cycles, ∃ hd, hd < n ∧ c = orbitList perm hd ∧ ∀ x ∈ c, hd ≤ x) →
      (∀ x, x ∈ visited ↔ ∃ t, t < s ∧ Reach perm t x) →
      ((cycles.map (fun c => c.headD 0)).Sorted (· < ·)) →
      (cycleScan perm (List.range' s cnt) (cycles, visited)).2 =
          (cycleScan perm (List.range' s cnt) (cycles, visited)).1.flatten ∧
      (∀ c ∈ (cycleScan perm (List.range' s cnt) (cycles, visited)).1,
          ∃ hd, hd < n ∧ c = orbitList perm hd ∧ ∀ x ∈ c, hd ≤ x) ∧
      (∀ x, x ∈ (cycleScan perm (List.range' s cnt) (cycles, visited)).2 ↔
          ∃ t, t < n ∧ Reach perm t x) ∧
      (((cycleScan perm (List.range' s cnt) (cycles, visited)).1.map
          (fun c => c.headD 0)).Sorted (· < ·)) := by
  intro cnt
  induction cnt with
  | zero =>
    intro s cycles visited hsn hflat hcyc hvis hsort
    simp only [List.range'] at *
    rw [cycleScan]
    refine ⟨hflat, hcyc, ?_, hsort⟩
    intro x
    rw [hvis x]
    constructor
    · rintro ⟨t, ht, hr⟩
      exact ⟨t, by omega, hr⟩
    · rintro ⟨t, ht, hr⟩
      exact ⟨t, by omega, hr⟩
  | succ cnt ih =>
    intro s cycles visited hsn hflat hcyc hvis hsort
    have hs : s < n := by omega
    rw [List.range'_succ, cycleScan]
    by_cases hmem : s ∈ visited
    · rw [if_pos hmem]
      refine ih (s + 1) cycles visited (by omega) hflat hcyc ?_ hsort
      intro x
      rw [hvis x]
      constructor
      · rintro ⟨t, ht, hr⟩
        exact ⟨t, by omega, hr⟩
      · rintro ⟨t, ht, hr⟩
        rcases Nat.lt_or_ge t s with hts | hts
        · exact ⟨t, hts, hr⟩
        · have hteq : t = s := by omega
          subst hteq
          obtain ⟨u, hu, hur⟩ := (hvis t).mp hmem
          exact ⟨u, hu, hur.trans hr⟩
    · rw [if_neg hmem]
      have hdisj : ∀ x, x ∈ orbitList perm s → x ∉ visited := by
        intro x hx hxv
        obtain ⟨t, ht, htr⟩ := (hvis x).mp hxv
        have hxn : x < n := orbitList_mem_lt h hs hx
        have hrsx : Reach perm s x := (mem_orbitList_iff_reach h hs).mp hx
        have hrxs : Reach perm x s := hrsx.symm h hs
        have : s ∈ visited := (hvis s).mpr ⟨t, ht, htr.trans hrxs⟩
        exact hmem this
      rw [cycleWalk_orbit h hs visited hdisj]
      have hminS : ∀ x ∈ orbitList perm s, s ≤ x := by
        intro x hx
        by_contra hxs
        push_neg at hxs
        have : x ∈ visited := (hvis x).mpr ⟨x, hxs, Reach.refl perm x⟩
        exact hdisj x hx this
      refine ih (s + 1) (cycles ++ [orbitList perm s]) (visited ++ orbitList perm s)
        (by omega) ?_ ?_ ?_ ?_
      · rw [hflat, List.flatten_append]
        simp
      · intro c hc
        rcases List.mem_append.mp hc with hcl | hcr
        · exact hcyc c hcl
        · rw [List.mem_singleton] at hcr
          subst hcr
          exact ⟨s, hs, rfl, hminS⟩
      · intro x
        constructor
        · intro hx
          rcases List.mem_append.mp hx with hxv | hxo
          · obtain ⟨t, ht, htr⟩ := (hvis x).mp hxv
            exact ⟨t, by omega, htr⟩
          · exact ⟨s, by omega, (mem_orbitList_iff_reach h hs).mp hxo⟩
        · rintro ⟨t, ht, hr⟩
          rcases Nat.lt_or_ge t s with hts | hts
          · exact List.mem_append.mpr (Or.inl ((hvis x).mpr ⟨t, hts, hr⟩))
          · have hteq : t = s := by omega
            subst hteq
            exact List.mem_append.mpr (Or.inr ((mem_orbitList_iff_reach h hs).mpr hr))
      · rw [List.map_append, List.Sorted, List.pairwise_append]
        refine ⟨hsort, by simp, ?_⟩
        intro a ha b hb
        simp only [List.map_cons, List.map_nil, List.mem_singleton] at hb
        rw [hb, orbitList_headD]
        obtain ⟨c, hc, rfl⟩ := List.mem_map.mp ha
        obtain ⟨hd, hhd, hceq, hmin⟩ := hcyc c hc
        have hhead : c.headD 0 = hd := by rw [hceq, orbitList_headD]
        rw [hhead]
        have hhdmem : hd ∈ c := by
          rw [hceq]
          exact (mem_orbitList_iff_reach h hhd).mpr (Reach.refl perm hd)
        have : hd ∈ visited := by
          rw [hflat]
          exact List.mem_flatten.mpr ⟨c, hc, hhdmem⟩
        obtain ⟨t, ht, htr⟩ := (hvis hd).mp this
        have : t ∈ orbitList perm hd := (mem_orbitList_iff_reach h hhd).mpr (htr.symm h (by omega))
        have : hd ≤ t := by
          rw [hceq] at hmin
          exact hmin t this
        omega

theorem permutation_cycles_core {n perm} (h : IsPermList n perm) :
    (∀ c ∈ permutation_cycles perm,
        ∃ hd, hd < n ∧ c = orbitList perm hd ∧ ∀ x ∈ c, hd ≤ x) ∧
    (∀ x, x ∈ (permutation_cycles perm).flatten ↔ x < n) ∧
    (((permutation_cycles perm).map (fun c => c.headD 0)).Sorted (· < ·)) := by
  have hbase := cycleScan_spec h n 0 [] [] (by omega) rfl (by simp) (by simp) (by simp)
  obtain ⟨hflat, hcyc, hvis, hsort⟩ := hbase
  rw [hflat] at hvis
  rw [permutation_cycles, h.length_eq, List.range_eq_range']
  refine ⟨hcyc, ?_, hsort⟩
  intro x
  rw [hvis x]
  constructor
  · rintro ⟨t, ht, hr⟩
    exact reach_lt h ht hr
  · intro hx
    exact ⟨x, hx, Reach.refl perm x⟩

theorem permutation_cycles_disjoint {n perm} (h : IsPermList n perm) :
    List.Pairwise (fun c d => ∀ x, x ∈ c → x ∉ d) (permutation_cycles perm) := by
  obtain ⟨hcyc, _, hsort⟩ := permutation_cycles_core h
  rw [List.Sorted, List.pairwise_map] at hsort
  refine hsort.imp_of_mem ?_
  intro c d hc hd hlt x hxc hxd
  obtain ⟨h1, h1n, hceq, hmin1⟩ := hcyc c hc
  obtain ⟨h2, h2n, hdeq, hmin2⟩ := hcyc d hd
  have hc1 : c.headD 0 = h1 := by rw [hceq, orbitList_headD]
  have hd2 : d.headD 0 = h2 := by rw [hdeq, orbitList_headD]
  rw [hc1, hd2] at hlt
  have hxn : x < n := orbitList_mem_lt h h1n (hceq ▸ hxc)
  have hr1 : Reach perm h1 x := (mem_orbitList_iff_reach h h1n).mp (hceq ▸ hxc)
  have hr2 : Reach perm h2 x := (mem_orbitList_iff_reach h h2n).mp (hdeq ▸ hxd)
  have hr : Reach perm h2 h1 := hr2.trans (hr1.symm h h1n)
  have : h1 ∈ d := by
    rw [hdeq]
    exact (mem_orbitList_iff_reach h h2n).mpr hr
  have : h2 ≤ h1 := hmin2 h1 this
  omega

theorem permutation_cycles_nodup_each {n perm} (h : IsPermList n perm) :
    ∀ c ∈ permutation_cycles perm, c.Nodup := by
  obtain ⟨hcyc, _, _⟩ := permutation_cycles_core h
  intro c hc
  obtain ⟨hd, hdn, hceq, _⟩ := hcyc c hc
  rw [hceq]
  exact orbitList_nodup h hdn

theorem permutation_cycles_flatten_perm {n perm} (h : IsPermList n perm) :
    List.Perm (permutation_cycles perm).flatten (List.range n) := by
  obtain ⟨hcyc, hmem, hsort⟩ := permutation_cycles_core h
  have hnd : (permutation_cycles perm).flatten.Nodup := by
    rw [List.nodup_flatten]
    constructor
    · exact permutation_cycles_nodup_each h
    · refine (permutation_cycles_disjoint h).imp ?_
      intro c d hcd
      intro x hxc hxd
      exact hcd x hxc hxd
  refine List.Subperm.antisymm ?_ ?_
  · refine List.Nodup.subperm hnd ?_
    intro x hx
    rw [List.mem_range]
    exact (hmem x).mp hx
  · refine List.Nodup.subperm (List.nodup_range n) ?_
    intro x hx
    rw [List.mem_range] at hx
    exact (hmem x).mpr hx

theorem permutation_cycles_length_sum {n perm} (h : IsPermList n perm) :
    ((permutation_cycles perm).map List.length).sum = n := by
  have := (permutation_cycles_flatten_perm h).length_eq
  rw [List.length_flatten] at this
  simpa using this

/-- C2: for every permutation `perm` of `0..n-1`, the cycle decomposition of
`permutation_cycles` is a partition of the index set (every index lies in a
cycle, cycles are pairwise disjoint and duplicate-free), cycles appear ordered
by their smallest (first-visited) index which is the cycle's head, each
cycle's internal order is the traversal `current = perm[current]` (with the
last element mapping back to the head), and applying the permutation
cycle-length times from the cycle's first element returns to that element. -/
theorem permutation_cycles_correct (n : ℕ) (perm : List ℕ) (h : IsPermList n perm) :
    (∀ i, i < n → ∃ c, c ∈ permutation_cycles perm ∧ i ∈ c) ∧
    List.Pairwise (fun c d => ∀ x, x ∈ c → x ∉ d) (permutation_cycles perm) ∧
    (∀ c ∈ permutation_cycles perm, c.Nodup) ∧
    (∀ c ∈ permutation_cycles perm, c ≠ []) ∧
    (((permutation_cycles perm).map (fun c => c.headD 0)).Sorted (· < ·)) ∧
    (∀ c ∈ permutation_cycles perm, ∀ x ∈ c, c.headD 0 ≤ x) ∧
    (∀ c ∈ permutation_cycles perm, ∀ k, k + 1 < c.length →
        c.getD (k + 1) 0 = pstep perm (c.getD k 0)) ∧
    (∀ c ∈ permutation_cycles perm, pstep perm (c.getD (c.length - 1) 0) = c.headD 0) ∧
    (∀ c ∈ permutation_cycles perm, (pstep perm)^[c.length] (c.headD 0) = c.headD 0) := by
  obtain ⟨hcyc, hmem, hsort⟩ := permutation_cycles_core h
  refine ⟨?_, permutation_cycles_disjoint h, permutation_cycles_nodup_each h,
    ?_, hsort, ?_, ?_, ?_, ?_⟩
  · intro i hi
    obtain ⟨c, hc, hic⟩ := List.mem_flatten.mp ((hmem i).mpr hi)
    exact ⟨c, hc, hic⟩
  · intro c hc
    obtain ⟨hd, hdn, hceq, _⟩ := hcyc c hc
    rw [hceq]
    exact orbitList_ne_nil perm hd
  · intro c hc x hx
    obtain ⟨hd, hdn, hceq, hmin⟩ := hcyc c hc
    have : c.headD 0 = hd := by rw [hceq, orbitList_headD]
    rw [this]
    exact hmin x hx
  · intro c hc k hk
    obtain ⟨hd, hdn, hceq, _⟩ := hcyc c hc
    subst hceq
    rw [orbitList_length] at hk
    rw [orbitList_getD perm hd hk, orbitList_getD perm hd (by omega),
      Function.iterate_succ_apply' (pstep perm) k hd]
  · intro c hc
    obtain ⟨hd, hdn, hceq, _⟩ := hcyc c hc
    subst hceq
    rw [orbitList_length, orbitList_headD]
    have hpos := perOf_pos perm hd
    rw [orbitList_getD perm hd (by omega)]
    rw [← Function.iterate_succ_apply' (pstep perm) (perOf perm hd - 1) hd]
    have hsucc : (perOf perm hd - 1).succ = perOf perm hd := by omega
    rw [hsucc]
    exact perOf_iterate h hdn
  · intro c hc
    obtain ⟨hd, hdn, hceq, _⟩ := hcyc c hc
    subst hceq
    rw [orbitList_length, orbitList_headD]
    exact perOf_iterate h hdn

theorem permutation_cycles_correct_witness :
    IsPermList 4 [1, 2, 0, 3] ∧
    (∃ c, c ∈ permutation_cycles [1, 2, 0, 3] ∧ 2 ∈ c) :=
  ⟨by decide, (permutation_cycles_correct 4 [1, 2, 0, 3] (by decide)).1 2 (by decide)⟩

/-! ### Parity: inversion count versus cycle count (claim C1) -/

/-- Recursive characterization of the inversion count. -/
def invRec : List ℕ → ℕ
  | [] => 0
  | x :: xs => xs.countP (fun y => decide (y < x)) + invRec xs

theorem countP_range'_getD (l : List ℕ) (pfun : ℕ → Bool) :
    ∀ (k s : ℕ), s + k = l.length →
      (List.range' s k).countP (fun j => pfun (l.getD j 0)) = (l.drop s).countP pfun := by
  intro k
  induction k with
  | zero =>
    intro s hs
    rw [List.drop_eq_nil_of_le (by omega)]
    simp [List.range']
  | succ k ih =>
    intro s hs
    have hslt : s < l.length := by omega
    rw [List.range'_succ, List.countP_cons, List.drop_eq_getElem_cons hslt,
      List.countP_cons, ih (s + 1) (by omega)]
    congr 1
    rw [List.getD_eq_getElem l 0 hslt]

theorem count_inversions_cons (x : ℕ) (xs : List ℕ) :
    count_inversions (x :: xs) =
      xs.countP (fun y => decide (y < x)) + count_inversions xs := by
  rw [count_inversions, count_inversions]
  have hlen : (x :: xs).length = xs.length + 1 := rfl
  rw [hlen, List.range_succ_eq_map, List.map_cons, List.sum_cons, List.map_map]
  congr 1
  · have := countP_range'_getD (x :: xs) (fun y => decide (y < x)) xs.length 1 (by
      simp [Nat.add_comm])
    simpa using this
  · congr 1
    apply List.map_congr_left
    intro i hi
    rw [List.mem_range] at hi
    simp only [Function.comp]
    have h1 := countP_range'_getD (x :: xs) (fun y => decide (y < xs.getD i 0))
      (xs.length - (i + 1)) (i + 2) (by omega)
    have h2 := countP_range'_getD xs (fun y => decide (y < xs.getD i 0))
      (xs.length - (i + 1)) (i + 1) (by omega)
    have hgd : (x :: xs).getD (i + 1) 0 = xs.getD i 0 := rfl
    have hidx1 : (i : ℕ) + 1 + 1 = i + 2 := rfl
    have hidx2 : xs.length + 1 - (i + 1 + 1) = xs.length - (i + 1) := by omega
    have hidx3 : xs.length - (i + 1 + 1 - 1) = xs.length - (i + 1) := by omega
    rw [show Nat.succ i = i + 1 from rfl]
    rw [hgd, hidx1, hidx2, h1, List.drop_succ_cons, h2]
  
theorem count_inversions_eq_invRec (l : List ℕ) : count_inversions l = invRec l := by
  induction l with
  | nil => rfl
  | cons x xs ih => rw [count_inversions_cons, invRec, ih]

/-- A cycle of indices, recast as a list of `Fin n`. -/
def finCycle {n : ℕ} (c : List ℕ) (hc : ∀ x ∈ c, x < n) : List (Fin n) :=
  c.pmap (fun x hx => (⟨x, hx⟩ : Fin n)) hc

theorem finCycle_length {n : ℕ} (c : List ℕ) (hc : ∀ x ∈ c, x < n) :
    (finCycle c hc).length = c.length := by
  simp [finCycle]

theorem finCycle_getElem {n : ℕ} (c : List ℕ) (hc : ∀ x ∈ c, x < n) (i : ℕ)
    (hi : i < (finCycle c hc).length) :
    ((finCycle c hc)[i] : Fin n).val = c.getD i 0 := by
  have hi2 : i < c.length := by
    have := finCycle_length c hc
    omega
  unfold finCycle
  rw [List.getElem_pmap]
  rw [List.getD_eq_getElem c 0 hi2]

theorem finCycle_mem {n : ℕ} (c : List ℕ) (hc : ∀ x ∈ c, x < n) (y : Fin n) :
    y ∈ finCycle c hc ↔ (y : ℕ) ∈ c := by
  unfold finCycle
  rw [List.mem_pmap]
  constructor
  · rintro ⟨a, ha, rfl⟩
    exact ha
  · intro hy
    exact ⟨(y : ℕ), hy, rfl⟩

theorem finCycle_nodup {n : ℕ} (c : List ℕ) (hc : ∀ x ∈ c, x < n)
    (hnd : c.Nodup) : (finCycle c hc).Nodup := by
  unfold finCycle
  exact hnd.pmap (fun a _ b _ hab => congrArg Fin.val hab)

/-- Sign of the permutation formed from a duplicate-free list is determined by
its length. -/
theorem sign_formPerm {n : ℕ} :
    ∀ (c : List (Fin n)), c.Nodup →
      Equiv.Perm.sign c.formPerm = (-1 : ℤˣ) ^ (c.length - 1) := by
  intro c
  induction c with
  | nil => intro _; simp [List.formPerm_nil]
  | cons x ys ih =>
    intro hnd
    cases ys with
    | nil => simp [List.formPerm_singleton]
    | cons y zs =>
      rw [List.formPerm_cons_cons]
      have hxy : x ≠ y := by
        intro hxy
        subst hxy
        simp at hnd
      have hnd2 : (y :: zs).Nodup := hnd.of_cons
      rw [map_mul, Equiv.Perm.sign_swap hxy, ih hnd2]
      have hl1 : (x :: y :: zs).length - 1 = ((y :: zs).length - 1) + 1 := by
        simp
      rw [hl1, pow_succ]
      exact (mul_comm _ _)

theorem cycles_mem_bound {n perm} (h : IsPermList n perm) {c : List ℕ}
    (hc : c ∈ permutation_cycles perm) : ∀ x ∈ c, x < n := by
  obtain ⟨hcyc, _, _⟩ := permutation_cycles_core h
  obtain ⟨hd, hdn, hceq, _⟩ := hcyc c hc
  intro x hx
  exact orbitList_mem_lt h hdn (hceq ▸ hx)

theorem cycles_succ {n perm} (h : IsPermList n perm) {c : List ℕ}
    (hc : c ∈ permutation_cycles perm) {k : ℕ} (hk : k + 1 < c.length) :
    c.getD (k + 1) 0 = pstep perm (c.getD k 0) := by
  obtain ⟨hcyc, _, _⟩ := permutation_cycles_core h
  obtain ⟨hd, hdn, hceq, _⟩ := hcyc c hc
  subst hceq
  rw [orbitList_length] at hk
  rw [orbitList_getD perm hd hk, orbitList_getD perm hd (by omega),
    Function.iterate_succ_apply' (pstep perm) k hd]

theorem cycles_wrap {n perm} (h : IsPermList n perm) {c : List ℕ}
    (hc : c ∈ permutation_cycles perm) :
    pstep perm (c.getD (c.length - 1) 0) = c.getD 0 0 := by
  obtain ⟨hcyc, _, _⟩ := permutation_cycles_core h
  obtain ⟨hd, hdn, hceq, _⟩ := hcyc c hc
  subst hceq
  have hpos := perOf_pos perm hd
  rw [orbitList_length]
  rw [orbitList_getD perm hd (by omega), orbitList_getD perm hd (by omega)]
  rw [← Function.iterate_succ_apply' (pstep perm) (perOf perm hd - 1) hd]
  have hsucc : (perOf perm hd - 1).succ = perOf perm hd := by omega
  rw [hsucc]
  simp [perOf_iterate h hdn]

theorem cycles_closed {n perm} (h : IsPermList n perm) {c : List ℕ}
    (hc : c ∈ permutation_cycles perm) {x : ℕ} (hx : x ∈ c) :
    pstep perm x ∈ c := by
  obtain ⟨hcyc, _, _⟩ := permutation_cycles_core h
  obtain ⟨hd, hdn, hceq, _⟩ := hcyc c hc
  subst hceq
  obtain ⟨k, rfl⟩ := (mem_orbitList_iff h hdn).mp hx
  rw [← Function.iterate_succ_apply' (pstep perm) k hd]
  exact (mem_orbitList_iff h hdn).mpr ⟨k + 1, rfl⟩

theorem formPerm_finCycle_apply {n perm} (h : IsPermList n perm) {c : List ℕ}
    (hc : c ∈ permutation_cycles perm) (hb : ∀ x ∈ c, x < n) (xf : Fin n) :
    ((finCycle c hb).formPerm xf : ℕ) =
      if (xf : ℕ) ∈ c then pstep perm xf.val else xf.val := by
  by_cases hmem : (xf : ℕ) ∈ c
  · rw [if_pos hmem]
    obtain ⟨i, hi, hieq⟩ := List.mem_iff_getElem.mp hmem
    have hifc : i < (finCycle c hb).length := by
      rw [finCycle_length]
      exact hi
    have hxf : xf = (finCycle c hb)[i] := by
      apply Fin.ext
      rw [finCycle_getElem c hb i hifc, List.getD_eq_getElem c 0 hi, hieq]
    rw [hxf]
    rw [List.formPerm_apply_getElem _ (finCycle_nodup c hb (permutation_cycles_nodup_each h c hc)) i hifc]
    have hflen : (finCycle c hb).length = c.length := finCycle_length c hb
    have hmodlt : (i + 1) % (finCycle c hb).length < (finCycle c hb).length := by
      apply Nat.mod_lt
      omega
    rw [finCycle_getElem c hb _ hmodlt]
    rw [hflen]
    rw [finCycle_getElem c hb i hifc]
    rcases Nat.lt_or_ge (i + 1) c.length with hlt | hge
    · rw [Nat.mod_eq_of_lt hlt]
      exact cycles_succ h hc hlt
    · have hieq2 : i + 1 = c.length := by omega
      rw [hieq2, Nat.mod_self]
      have : i = c.length - 1 := by omega
      rw [this]
      exact (cycles_wrap h hc).symm
  · rw [if_neg hmem]
    have : xf ∉ finCycle c hb := by
      rw [finCycle_mem]
      exact hmem
    rw [List.formPerm_apply_of_not_mem this]

/-- Bounded entries of a list recast into `Fin n`, without a proof argument. -/
def finsOf (n : ℕ) (c : List ℕ) : List (Fin n) :=
  c.filterMap (fun x => if hx : x < n then some (⟨x, hx⟩ : Fin n) else none)

theorem finsOf_eq_finCycle {n : ℕ} (c : List ℕ) (hb : ∀ x ∈ c, x < n) :
    finsOf n c = finCycle c hb := by
  induction c with
  | nil => rfl
  | cons x xs ih =>
    have hx : x < n := hb x (List.mem_cons_self x xs)
    rw [finsOf, List.filterMap_cons, dif_pos hx]
    unfold finCycle
    rw [List.pmap]
    rw [← finsOf, ih (fun y hy => hb y (List.mem_cons_of_mem x hy))]
    rfl

theorem cycles_ne_nil {n perm} (h : IsPermList n perm) {c : List ℕ}
    (hc : c ∈ permutation_cycles perm) : c ≠ [] := by
  obtain ⟨hcyc, _, _⟩ := permutation_cycles_core h
  obtain ⟨hd, hdn, hceq, _⟩ := hcyc c hc
  rw [hceq]
  exact orbitList_ne_nil perm hd

/-- Action of the product of the cycles' `formPerm`s: one application of
the permutation on every index covered by the cycle list. -/
theorem prod_formPerm_action {n perm} (h : IsPermList n perm) :
    ∀ (L : List (List ℕ)), (∀ c ∈ L, c ∈ permutation_cycles perm) →
      List.Pairwise (fun c d => ∀ x, x ∈ c → x ∉ d) L →
      ∀ xf : Fin n,
        (((L.map (fun c => (finsOf n c).formPerm)).prod xf : Fin n) : ℕ) =
          if (xf : ℕ) ∈ L.flatten then pstep perm xf.val else xf.val := by
  intro L
  induction L with
  | nil =>
    intro _ _ xf
    simp
  | cons c L ih =>
    intro hsub hpw xf
    have hcmem : c ∈ permutation_cycles perm := hsub c (List.mem_cons_self c L)
    have hsubL : ∀ d ∈ L, d ∈ permutation_cycles perm :=
      fun d hd => hsub d (List.mem_cons_of_mem c hd)
    have hpwc := (List.pairwise_cons.mp hpw).1
    have hpwL := (List.pairwise_cons.mp hpw).2
    have hb : ∀ x ∈ c, x < n := cycles_mem_bound h hcmem
    rw [List.map_cons, List.prod_cons, Equiv.Perm.mul_apply]
    rw [finsOf_eq_finCycle c hb]
    by_cases hxc : (xf : ℕ) ∈ c
    · have hxnotL : (xf : ℕ) ∉ L.flatten := by
        intro hmem
        obtain ⟨d, hdL, hxd⟩ := List.mem_flatten.mp hmem
        exact hpwc d hdL (xf : ℕ) hxc hxd
      have htail := ih hsubL hpwL xf
      rw [if_neg hxnotL] at htail
      have htail2 : (L.map (fun c => (finsOf n c).formPerm)).prod xf = xf :=
        Fin.ext htail
      rw [htail2]
      rw [formPerm_finCycle_apply h hcmem hb xf, if_pos hxc]
      rw [if_pos (List.mem_flatten.mpr ⟨c, List.mem_cons_self c L, hxc⟩)]
    · by_cases hxL : (xf : ℕ) ∈ L.flatten
      · obtain ⟨d, hdL, hxd⟩ := List.mem_flatten.mp hxL
        have htail := ih hsubL hpwL xf
        rw [if_pos hxL] at htail
        set y := (L.map (fun c => (finsOf n c).formPerm)).prod xf with hy
        have hyval : (y : ℕ) = pstep perm xf.val := htail
        have hyd : (y : ℕ) ∈ d := by
          rw [hyval]
          exact cycles_closed h (hsubL d hdL) hxd
        have hync : (y : ℕ) ∉ c := fun hyc => hpwc d hdL (y : ℕ) hyc hyd
        rw [formPerm_finCycle_apply h hcmem hb y, if_neg hync, hyval]
        rw [if_pos (List.mem_flatten.mpr ⟨d, List.mem_cons_of_mem c hdL, hxd⟩)]
      · have htail := ih hsubL hpwL xf
        rw [if_neg hxL] at htail
        have htail2 : (L.map (fun c => (finsOf n c).formPerm)).prod xf = xf :=
          Fin.ext htail
        rw [htail2]
        rw [formPerm_finCycle_apply h hcmem hb xf, if_neg hxc]
        rw [if_neg (by
          intro hmem
          rcases List.mem_flatten.mp hmem with ⟨d, hdm, hxd⟩
          rcases List.mem_cons.mp hdm with rfl | hdm2
          · exact hxc hxd
          · exact hxL (List.mem_flatten.mpr ⟨d, hdm2, hxd⟩))]

theorem prod_map_pow {α : Type} {β : Type} [CommMonoid β] (x : β) (f : α → ℕ) :
    ∀ (l : List α), (l.map (fun a => x ^ f a)).prod = x ^ (l.map f).sum := by
  intro l
  induction l with
  | nil => simp
  | cons a t ih =>
    rw [List.map_cons, List.prod_cons, ih, List.map_cons, List.sum_cons, pow_add]

theorem length_le_sum {l : List ℕ} (h1 : ∀ a ∈ l, 1 ≤ a) : l.length ≤ l.sum := by
  induction l with
  | nil => simp
  | cons a t ih =>
    have ha := h1 a (List.mem_cons_self a t)
    have ht := ih (fun b hb => h1 b (List.mem_cons_of_mem a hb))
    simp only [List.length_cons, List.sum_cons]
    omega

theorem sum_sub_one {l : List ℕ} (h1 : ∀ a ∈ l, 1 ≤ a) :
    (l.map (fun a => a - 1)).sum = l.sum - l.length := by
  induction l with
  | nil => simp
  | cons a t ih =>
    have ha := h1 a (List.mem_cons_self a t)
    have ht : ∀ b ∈ t, 1 ≤ b := fun b hb => h1 b (List.mem_cons_of_mem a hb)
    have hsum : t.length ≤ t.sum := length_le_sum ht
    rw [List.map_cons, List.sum_cons, ih ht]
    simp only [List.sum_cons, List.length_cons]
    omega

theorem exists_sigma {n perm} (h : IsPermList n perm) :
    ∃ σ : Equiv.Perm (Fin n),
      (∀ xf : Fin n, ((σ xf : Fin n) : ℕ) = pstep perm xf.val) ∧
      Equiv.Perm.sign σ = (-1 : ℤˣ) ^ (n - (permutation_cycles perm).length) := by
  obtain ⟨hcyc, hmem, hsort⟩ := permutation_cycles_core h
  refine ⟨((permutation_cycles perm).map (fun c => (finsOf n c).formPerm)).prod, ?_, ?_⟩
  · intro xf
    have := prod_formPerm_action h (permutation_cycles perm) (fun c hc => hc)
      (permutation_cycles_disjoint h) xf
    rw [if_pos ((hmem (xf : ℕ)).mpr xf.2)] at this
    exact this
  · rw [map_list_prod Equiv.Perm.sign, List.map_map]
    have hcongr : (permutation_cycles perm).map (Equiv.Perm.sign ∘ fun c => (finsOf n c).formPerm) =
        (permutation_cycles perm).map (fun c => (-1 : ℤˣ) ^ (c.length - 1)) := by
      apply List.map_congr_left
      intro c hc
      have hb : ∀ x ∈ c, x < n := cycles_mem_bound h hc
      simp only [Function.comp]
      rw [finsOf_eq_finCycle c hb,
        sign_formPerm (finCycle c hb) (finCycle_nodup c hb (permutation_cycles_nodup_each h c hc)),
        finCycle_length]
    rw [hcongr, prod_map_pow]
    congr 1
    have hmap : (permutation_cycles perm).map (fun c => c.length - 1) =
        ((permutation_cycles perm).map List.length).map (fun a => a - 1) := by
      rw [List.map_map]
      rfl
    rw [hmap, sum_sub_one]
    · rw [permutation_cycles_length_sum h]
      simp
    · intro a ha
      obtain ⟨c, hc, rfl⟩ := List.mem_map.mp ha
      have := cycles_ne_nil h hc
      have := List.length_pos.mpr this
      omega

theorem sign_eq_signAux {n : ℕ} (f : Equiv.Perm (Fin n)) :
    Equiv.Perm.sign f = Equiv.Perm.signAux f := by
  have key : ∀ (s : Multiset (Fin n)) (hs : ∀ x, x ∈ s),
      Equiv.Perm.signAux3 f hs = Equiv.Perm.signAux f := by
    intro s
    induction s using Quotient.inductionOn with
    | h l =>
      intro hs
      show Equiv.Perm.signAux2 l f = Equiv.Perm.signAux f
      have hfix : ∀ x, f x ≠ x → x ∈ l := fun x _ => hs x
      have h2 := Equiv.Perm.signAux_eq_signAux2 l f (Equiv.refl (Fin n)) hfix
      have heq : ((Equiv.refl (Fin n)).symm.trans f).trans (Equiv.refl (Fin n)) = f := by
        ext x
        simp
      rw [← h2, heq]
  exact key Finset.univ.val (fun x => Finset.mem_univ x)

theorem list_sum_range_eq {β : Type} [AddCommMonoid β] (f : ℕ → β) :
    ∀ (m : ℕ), ((List.range m).map f).sum = ∑ i ∈ Finset.range m, f i := by
  intro m
  induction m with
  | zero => simp
  | succ m ih =>
    rw [List.range_succ, List.map_append, List.sum_append, Finset.sum_range_succ, ih]
    simp

theorem countP_range'_eq_sum (p : ℕ → Bool) :
    ∀ (k s m : ℕ), s + k = m →
      ((List.range' s k).countP p : ℕ) =
        ∑ j ∈ Finset.range m, if s ≤ j ∧ p j then 1 else 0 := by
  intro k
  induction k with
  | zero =>
    intro s m hm
    symm
    rw [List.range', List.countP_nil]
    apply Finset.sum_eq_zero
    intro j hj
    rw [Finset.mem_range] at hj
    rw [if_neg]
    rintro ⟨hsj, _⟩
    omega
  | succ k ih =>
    intro s m hm
    rw [List.range'_succ, List.countP_cons, ih (s + 1) m (by omega)]
    have hsplit : ∀ j, (if s ≤ j ∧ p j then (1 : ℕ) else 0) =
        (if s + 1 ≤ j ∧ p j then 1 else 0) + (if j = s then (if p j then 1 else 0) else 0) := by
      intro j
      by_cases hjs : j = s
      · subst hjs
        by_cases hp : p j
        · rw [if_pos ⟨le_refl j, hp⟩, if_neg (by omega), if_pos rfl, if_pos hp]
        · rw [if_neg (fun hc => hp hc.2), if_neg (fun hc => hp hc.2), if_pos rfl, if_neg hp]
      · by_cases hle : s + 1 ≤ j
        · by_cases hp : p j
          · rw [if_pos ⟨by omega, hp⟩, if_pos ⟨hle, hp⟩, if_neg hjs]
          · rw [if_neg (fun hc => hp hc.2), if_neg (fun hc => hp hc.2), if_neg hjs]
        · rw [if_neg (by omega), if_neg (by omega), if_neg hjs]
    rw [Finset.sum_congr rfl (fun j _ => hsplit j), Finset.sum_add_distrib]
    congr 1
    rw [Finset.sum_ite_eq' (Finset.range m) s (fun j => if p j then 1 else 0)]
    rw [if_pos (Finset.mem_range.mpr (by omega))]

theorem count_inversions_double {n perm} (h : IsPermList n perm) :
    count_inversions perm =
      ∑ i ∈ Finset.range n, ∑ j ∈ Finset.range n,
        if i < j ∧ pstep perm j < pstep perm i then 1 else 0 := by
  rw [count_inversions, h.length_eq, list_sum_range_eq]
  apply Finset.sum_congr rfl
  intro i hi
  rw [Finset.mem_range] at hi
  rw [countP_range'_eq_sum (fun j => decide (perm.getD j 0 < perm.getD i 0))
    (n - (i + 1)) (i + 1) n (by omega)]
  apply Finset.sum_congr rfl
  intro j _
  by_cases hc : i < j ∧ pstep perm j < pstep perm i
  · rw [if_pos hc, if_pos]
    refine ⟨by omega, ?_⟩
    simpa [pstep] using hc.2
  · rw [if_neg hc, if_neg]
    intro hcon
    apply hc
    refine ⟨by omega, ?_⟩
    have := hcon.2
    simpa [pstep] using this

theorem prod_over_univ_ite {n : ℕ} (t : Finset (Fin n)) (P : Fin n → Prop)
    [DecidablePred P] (hmem : ∀ b, b ∈ t ↔ P b) (f : Fin n → ℤˣ) :
    ∏ b ∈ t, f b = ∏ b ∈ Finset.univ, if P b then f b else 1 := by
  have ht : t = Finset.filter P Finset.univ := by
    ext b
    simp [hmem b]
  rw [ht, Finset.prod_filter]

theorem signAux_eq_neg_one_pow {n perm} (h : IsPermList n perm)
    (σ : Equiv.Perm (Fin n))
    (hact : ∀ xf : Fin n, ((σ xf : Fin n) : ℕ) = pstep perm xf.val) :
    Equiv.Perm.signAux σ = (-1 : ℤˣ) ^ count_inversions perm := by
  have lhs_eq : Equiv.Perm.signAux σ =
      ∏ i ∈ Finset.range n, ∏ j ∈ Finset.range n,
        if j < i ∧ pstep perm i ≤ pstep perm j then (-1 : ℤˣ) else 1 := by
    unfold Equiv.Perm.signAux
    unfold Equiv.Perm.finPairsLT
    rw [Finset.prod_sigma]
    have hstep1 : ∀ a : Fin n,
        (∏ b ∈ (Finset.range (a : ℕ)).attachFin
            (fun m hm => (Finset.mem_range.1 hm).trans a.2),
          if σ a ≤ σ b then (-1 : ℤˣ) else 1) =
        ∏ b ∈ (Finset.univ : Finset (Fin n)),
          if (b : ℕ) < (a : ℕ) ∧ pstep perm (a : ℕ) ≤ pstep perm (b : ℕ)
          then (-1 : ℤˣ) else 1 := by
      intro a
      rw [prod_over_univ_ite _ (fun b => (b : ℕ) < (a : ℕ))
        (fun b => by rw [Finset.mem_attachFin, Finset.mem_range])
        (fun b => if σ a ≤ σ b then (-1 : ℤˣ) else 1)]
      apply Finset.prod_congr rfl
      intro b _
      by_cases hba : (b : ℕ) < (a : ℕ)
      · rw [if_pos hba]
        by_cases hle : σ a ≤ σ b
        · rw [if_pos hle, if_pos ⟨hba, by rw [← hact a, ← hact b]; exact hle⟩]
        · rw [if_neg hle, if_neg]
          rintro ⟨_, hc⟩
          apply hle
          rw [Fin.le_def, hact a, hact b]
          exact hc
      · rw [if_neg hba, if_neg (fun hc => hba hc.1)]
    have hinner : ∀ a : Fin n,
        (∏ b ∈ (Finset.univ : Finset (Fin n)),
          if (b : ℕ) < (a : ℕ) ∧ pstep perm (a : ℕ) ≤ pstep perm (b : ℕ)
          then (-1 : ℤˣ) else 1) =
        ∏ j ∈ Finset.range n,
          if j < (a : ℕ) ∧ pstep perm (a : ℕ) ≤ pstep perm j
          then (-1 : ℤˣ) else 1 := fun a =>
      Fin.prod_univ_eq_prod_range
        (fun j => if j < (a : ℕ) ∧ pstep perm (a : ℕ) ≤ pstep perm j
          then (-1 : ℤˣ) else 1) n
    refine Eq.trans (Finset.prod_congr rfl (fun a _ => hstep1 a)) ?_
    refine Eq.trans (Finset.prod_congr rfl (fun a _ => hinner a)) ?_
    exact Fin.prod_univ_eq_prod_range
      (fun i => ∏ j ∈ Finset.range n,
        if j < i ∧ pstep perm i ≤ pstep perm j then (-1 : ℤˣ) else 1) n
  have rhs_eq : (-1 : ℤˣ) ^ count_inversions perm =
      ∏ i ∈ Finset.range n, ∏ j ∈ Finset.range n,
        if i < j ∧ pstep perm j < pstep perm i then (-1 : ℤˣ) else 1 := by
    rw [count_inversions_double h]
    rw [← Finset.prod_pow_eq_pow_sum]
    apply Finset.prod_congr rfl
    intro i _
    rw [← Finset.prod_pow_eq_pow_sum]
    apply Finset.prod_congr rfl
    intro j _
    by_cases hc : i < j ∧ pstep perm j < pstep perm i
    · rw [if_pos hc, if_pos hc, pow_one]
    · rw [if_neg hc, if_neg hc, pow_zero]
  rw [lhs_eq, rhs_eq, Finset.prod_comm]
  apply Finset.prod_congr rfl
  intro i hi
  apply Finset.prod_congr rfl
  intro j hj
  rw [Finset.mem_range] at hi hj
  by_cases hij : i < j
  · have hne : pstep perm j ≠ pstep perm i := by
      intro he
      have := pstep_inj h hj hi he
      omega
    by_cases hc : pstep perm j < pstep perm i
    · rw [if_pos ⟨hij, le_of_lt hc⟩, if_pos ⟨hij, hc⟩]
    · rw [if_neg, if_neg (fun hcon => hc hcon.2)]
      rintro ⟨_, hle⟩
      exact hc (lt_of_le_of_ne hle hne)
  · rw [if_neg (fun hc => hij hc.1), if_neg (fun hc => hij hc.1)]

theorem permutation_parity_eq (perm : List ℕ) :
    permutation_parity perm =
      if count_inversions perm % 2 = 0 then "even" else "odd" := rfl

theorem neg_one_pow_mod_eq {a b : ℕ} (hab : (-1 : ℤˣ) ^ a = (-1 : ℤˣ) ^ b) :
    a % 2 = b % 2 := by
  rcases Nat.even_or_odd a with ha | ha <;> rcases Nat.even_or_odd b with hb | hb
  · rw [Nat.even_iff] at ha hb
    omega
  · exfalso
    rw [ha.neg_one_pow, hb.neg_one_pow] at hab
    exact (by decide : (1 : ℤˣ) ≠ -1) hab
  · exfalso
    rw [ha.neg_one_pow, hb.neg_one_pow] at hab
    exact (by decide : (1 : ℤˣ) ≠ -1) hab.symm
  · rw [Nat.odd_iff] at ha hb
    omega

/-- C1: for every permutation of `0..n-1`, the inversion count is even exactly
when `permutation_parity` reports "even", and this agrees with the cycle-based
parity: the inversion count is even iff `n` minus the number of cycles of the
cycle decomposition (fixed points included) is even. -/
theorem parity_consistency (n : ℕ) (perm : List ℕ) (h : IsPermList n perm) :
    ((count_inversions perm % 2 = 0) ↔ permutation_parity perm = "even") ∧
    ((count_inversions perm % 2 = 0) ↔
      (n - (permutation_cycles perm).length) % 2 = 0) := by
  obtain ⟨σ, hact, hsign⟩ := exists_sigma h
  have h1 := sign_eq_signAux σ
  have h2 := signAux_eq_neg_one_pow h σ hact
  have hpows : (-1 : ℤˣ) ^ count_inversions perm =
      (-1 : ℤˣ) ^ (n - (permutation_cycles perm).length) := by
    rw [← h2, ← h1, hsign]
  have hmod := neg_one_pow_mod_eq hpows
  constructor
  · rw [permutation_parity_eq]
    by_cases he : count_inversions perm % 2 = 0
    · rw [if_pos he]
      exact ⟨fun _ => rfl, fun _ => he⟩
    · rw [if_neg he]
      exact ⟨fun hc => absurd hc he, fun hc => absurd hc (by decide)⟩
  · omega

theorem parity_consistency_witness :
    IsPermList 4 [1, 2, 0, 3] ∧
    (((count_inversions [1, 2, 0, 3] % 2 = 0) ↔
        permutation_parity [1, 2, 0, 3] = "even") ∧
      ((count_inversions [1, 2, 0, 3] % 2 = 0) ↔
        (4 - (permutation_cycles [1, 2, 0, 3]).length) % 2 = 0)) :=
  ⟨by decide, parity_consistency 4 [1, 2, 0, 3] (by decide)⟩

/-! ### TransitionClassifier (`classify_transition`) -/

/-- Python `next_perm.index(bell)`: position of `bell`, `ValueError` (`none`)
when absent. -/
def listIndex (xs : List ℕ) (bell : ℕ) : Option ℕ :=
  if bell ∈ xs then some (xs.indexOf bell) else none

/-- Python list assignment `l[i] = a`: `IndexError` (`none`) when out of
range. -/
def setAt {α : Type} (l : List α) (i : ℕ) (a : α) : Option (List α) :=
  if i < l.length then some (l.set i a) else none

/-- One per-bell movement record, fields `bell`, `from`, `to`, `distance`,
`direction` of the Python dict (`from`/`to` renamed: keywords in Lean). -/
structure Movement where
  bell : ℕ
  fromPos : ℕ
  toPos : ℕ
  distance : ℤ
  direction : String
deriving DecidableEq

/-- Counter initialized as `Counter(up=0, down=0, stay=0)`. -/
structure MovementCounts where
  up : ℕ
  down : ℕ
  stay : ℕ
deriving DecidableEq

/-- Counter keyed by `str(distance)`: an insertion-ordered association list,
like a Python `Counter`. -/
def bumpKey (m : List (String × ℕ)) (k : String) : List (String × ℕ) :=
  match m with
  | [] => [(k, 1)]
  | (k0, v0) :: rest =>
    if k0 = k then (k0, v0 + 1) :: rest else (k0, v0) :: bumpKey rest k

/-- Mutable state of the first loop of `classify_transition`. -/
structure ClassifyState where
  positionPerm : List ℕ
  bellPerm : List ℕ
  movements : List Movement
  counts : MovementCounts
  distanceCounts : List (String × ℕ)
  adjacentOnly : Bool
deriving DecidableEq

/-- Body of `for pos, bell in enumerate(prev_perm)`. -/
def classifyStep (nextPerm : List ℕ) (st : ClassifyState) (pos bell : ℕ) :
    Option ClassifyState := do
  let targetPos ← listIndex nextPerm bell
  let pp ← setAt st.positionPerm pos targetPos
  let bp ← setAt st.bellPerm bell targetPos
  let distance : ℤ := (targetPos : ℤ) - (pos : ℤ)
  let adjacentOnly := if 1 < distance.natAbs then false else st.adjacentOnly
  let direction := if distance < 0 then "up" else if 0 < distance then "down" else "stay"
  let counts :=
    { up := st.counts.up + (if direction = "up" then 1 else 0),
      down := st.counts.down + (if direction = "down" then 1 else 0),
      stay := st.counts.stay + (if direction = "stay" then 1 else 0) }
  some { positionPerm := pp, bellPerm := bp,
         movements := st.movements ++
           [{ bell := bell, fromPos := pos, toPos := targetPos,
              distance := distance, direction := direction }],
         counts := counts,
         distanceCounts := bumpKey st.distanceCounts (toString distance),
         adjacentOnly := adjacentOnly }

def classifyLoop (nextPerm : List ℕ) : List (ℕ × ℕ) → ClassifyState → Option ClassifyState
  | [], st => some st
  | (pos, bell) :: rest, st => do
    let st2 ← classifyStep nextPerm st pos bell
    classifyLoop nextPerm rest st2

/-- Body of the swap-pair detection loop over `enumerate(position_perm)`,
carrying the `swap_pairs` and `visited_swaps` accumulators. -/
def swapLoop (pp : List ℕ) :
    List (ℕ × ℕ) → List (ℕ × ℕ) → List ℕ → Option (List (ℕ × ℕ))
  | [], pairs, _ => some pairs
  | (idx, target) :: rest, pairs, visited =>
    if idx ∈ visited ∨ target = idx then swapLoop pp rest pairs visited
    else do
      let back ← pp[target]?
      if back = idx then
        let pair := (min idx target, max idx target)
        let pairs2 := if pair ∈ pairs then pairs else pairs ++ [pair]
        swapLoop pp rest pairs2 (visited ++ [idx, target])
      else swapLoop pp rest pairs visited

/-- Result record of `classify_transition` (the fields the claims refer to). -/
structure Transition where
  positionPermutation : List ℕ
  bellPermutation : List ℕ
  cycles : List (List ℕ)
  cycleSignature : String
  parity : String
  sign : ℤ
  adjacentOnly : Bool
  swapPairs : List (ℕ × ℕ)
  movements : List Movement
  movementCounts : MovementCounts
  distanceCounts : List (String × ℕ)
deriving DecidableEq

/-- Embedding of `classify_transition`.  A Python exception (`ValueError`
from `.index`, `IndexError` from subscripts) is `none`. -/
def classify_transition (prevPerm nextPerm : List ℕ) : Option Transition := do
  let stage := prevPerm.length
  let init : ClassifyState :=
    { positionPerm := List.replicate stage 0, bellPerm := List.replicate stage 0,
      movements := [], counts := ⟨0, 0, 0⟩, distanceCounts := [], adjacentOnly := true }
  let st ← classifyLoop nextPerm prevPerm.enum init
  let swaps ← swapLoop st.positionPerm st.positionPerm.enum [] []
  let cycles := permutation_cycles st.positionPerm
  let parity := permutation_parity st.positionPerm
  some { positionPermutation := st.positionPerm,
         bellPermutation := st.bellPerm,
         cycles := cycles,
         cycleSignature := cycle_signature_from_cycles cycles,
         parity := parity,
         sign := permutation_sign parity,
         adjacentOnly := st.adjacentOnly,
         swapPairs := swaps,
         movements := st.movements,
         movementCounts := st.counts,
         distanceCounts := st.distanceCounts }

/-- Target position of the enumerated pair `(pos, bell)` within the after row. -/
def mtgt (B : List ℕ) (q : ℕ × ℕ) : ℕ := B.indexOf q.2

/-- Signed distance of the enumerated pair `(pos, bell)`. -/
def mdist (B : List ℕ) (q : ℕ × ℕ) : ℤ := (B.indexOf q.2 : ℤ) - (q.1 : ℤ)

/-- Movement direction of the enumerated pair `(pos, bell)`. -/
def mdir (B : List ℕ) (q : ℕ × ℕ) : String :=
  if mdist B q < 0 then "up" else if 0 < mdist B q then "down" else "stay"

/-- Movement record of the enumerated pair `(pos, bell)`. -/
def mkMove (B : List ℕ) (q : ℕ × ℕ) : Movement :=
  { bell := q.2, fromPos := q.1, toPos := B.indexOf q.2,
    distance := mdist B q, direction := mdir B q }

theorem classifyLoop_eq (B : List ℕ) :
    ∀ (pairs : List (ℕ × ℕ)) (st : ClassifyState),
      (∀ q ∈ pairs, q.2 ∈ B ∧ q.1 < st.positionPerm.length ∧ q.2 < st.bellPerm.length) →
      ∃ st2, classifyLoop B pairs st = some st2 ∧
        st2.positionPerm =
          pairs.foldl (fun l q => l.set q.1 (B.indexOf q.2)) st.positionPerm ∧
        st2.bellPerm =
          pairs.foldl (fun l q => l.set q.2 (B.indexOf q.2)) st.bellPerm ∧
        st2.movements = st.movements ++ pairs.map (mkMove B) ∧
        st2.counts.up = st.counts.up + pairs.countP (fun q => decide (mdir B q = "up")) ∧
        st2.counts.down = st.counts.down + pairs.countP (fun q => decide (mdir B q = "down")) ∧
        st2.counts.stay = st.counts.stay + pairs.countP (fun q => decide (mdir B q = "stay")) ∧
        st2.distanceCounts =
          pairs.foldl (fun m q => bumpKey m (toString (mdist B q))) st.distanceCounts ∧
        st2.adjacentOnly =
          (st.adjacentOnly && pairs.all (fun q => decide ((mdist B q).natAbs ≤ 1))) := by
  intro pairs
  induction pairs with
  | nil =>
    intro st hq
    refine ⟨st, rfl, rfl, rfl, by simp, by simp, by simp, by simp, rfl, by simp⟩
  | cons q rest ih =>
    intro st hq
    obtain ⟨pos, bell⟩ := q
    obtain ⟨hqB, hqp, hqb⟩ := hq (pos, bell) (List.mem_cons_self _ rest)
    rw [classifyLoop]
    have hstep : classifyStep B st pos bell = some
        { positionPerm := st.positionPerm.set pos (B.indexOf bell),
          bellPerm := st.bellPerm.set bell (B.indexOf bell),
          movements := st.movements ++ [mkMove B (pos, bell)],
          counts :=
            { up := st.counts.up + (if mdir B (pos, bell) = "up" then 1 else 0),
              down := st.counts.down + (if mdir B (pos, bell) = "down" then 1 else 0),
              stay := st.counts.stay + (if mdir B (pos, bell) = "stay" then 1 else 0) },
          distanceCounts := bumpKey st.distanceCounts (toString (mdist B (pos, bell))),
          adjacentOnly :=
            (st.adjacentOnly && decide ((mdist B (pos, bell)).natAbs ≤ 1)) } := by
      rw [classifyStep]
      rw [listIndex, if_pos hqB]
      simp only [Option.bind_eq_bind, Option.some_bind]
      rw [setAt, if_pos hqp]
      simp only [Option.some_bind]
      rw [setAt, if_pos hqb]
      simp only [Option.some_bind]
      have hadj : (if 1 < ((B.indexOf bell : ℤ) - (pos : ℤ)).natAbs then false
            else st.adjacentOnly) =
          (st.adjacentOnly && decide ((mdist B (pos, bell)).natAbs ≤ 1)) := by
        have hd : ((B.indexOf bell : ℤ) - (pos : ℤ)) = mdist B (pos, bell) := rfl
        rw [hd]
        by_cases hgt : 1 < (mdist B (pos, bell)).natAbs
        · rw [if_pos hgt]
          have hnot : ¬(mdist B (pos, bell)).natAbs ≤ 1 := by omega
          simp [hnot]
        · rw [if_neg hgt]
          have hle : (mdist B (pos, bell)).natAbs ≤ 1 := by omega
          simp [hle]
      rw [hadj]
      rfl
    rw [hstep]
    simp only [Option.bind_eq_bind, Option.some_bind]
    obtain ⟨st2, hloop, hpp, hbp, hmov, hup, hdown, hstay, hdc, hadj2⟩ :=
      ih { positionPerm := st.positionPerm.set pos (B.indexOf bell),
           bellPerm := st.bellPerm.set bell (B.indexOf bell),
           movements := st.movements ++ [mkMove B (pos, bell)],
           counts :=
             { up := st.counts.up + (if mdir B (pos, bell) = "up" then 1 else 0),
               down := st.counts.down + (if mdir B (pos, bell) = "down" then 1 else 0),
               stay := st.counts.stay + (if mdir B (pos, bell) = "stay" then 1 else 0) },
           distanceCounts := bumpKey st.distanceCounts (toString (mdist B (pos, bell))),
           adjacentOnly :=
             (st.adjacentOnly && decide ((mdist B (pos, bell)).natAbs ≤ 1)) }
        (by
          intro r hr
          obtain ⟨h1, h2, h3⟩ := hq r (List.mem_cons_of_mem (pos, bell) hr)
          exact ⟨h1, by simpa using h2, by simpa using h3⟩)
    refine ⟨st2, hloop, ?_, ?_, ?_, ?_, ?_, ?_, ?_, ?_⟩
    · rw [hpp, List.foldl_cons]
    · rw [hbp, List.foldl_cons]
    · rw [hmov, List.map_cons]
      show st.movements ++ [mkMove B (pos, bell)] ++ _ = _
      simp
    · rw [hup, List.countP_cons]
      show st.counts.up + (if mdir B (pos, bell) = "up" then 1 else 0) + _ = _
      simp only [decide_eq_true_eq]
      omega
    · rw [hdown, List.countP_cons]
      show st.counts.down + (if mdir B (pos, bell) = "down" then 1 else 0) + _ = _
      simp only [decide_eq_true_eq]
      omega
    · rw [hstay, List.countP_cons]
      show st.counts.stay + (if mdir B (pos, bell) = "stay" then 1 else 0) + _ = _
      simp only [decide_eq_true_eq]
      omega
    · rw [hdc, List.foldl_cons]
    · rw [hadj2, List.all_cons]
      exact Bool.and_assoc st.adjacentOnly (decide ((mdist B (pos, bell)).natAbs ≤ 1))
        (rest.all fun r => decide ((mdist B r).natAbs ≤ 1))

theorem foldl_set_length {α : Type} (f : ℕ × ℕ → α) :
    ∀ (pairs : List (ℕ × ℕ)) (key : ℕ × ℕ → ℕ) (init : List α),
      (pairs.foldl (fun l q => l.set (key q) (f q)) init).length = init.length := by
  intro pairs
  induction pairs with
  | nil => intro key init; rfl
  | cons q rest ih =>
    intro key init
    rw [List.foldl_cons, ih]
    simp

theorem foldl_set_getD_not_mem {f : ℕ × ℕ → ℕ} {key : ℕ × ℕ → ℕ} :
    ∀ (pairs : List (ℕ × ℕ)) (init : List ℕ) (p : ℕ),
      (∀ q ∈ pairs, key q ≠ p) →
      (pairs.foldl (fun l q => l.set (key q) (f q)) init).getD p 0 = init.getD p 0 := by
  intro pairs
  induction pairs with
  | nil => intro init p _; rfl
  | cons q rest ih =>
    intro init p hne
    rw [List.foldl_cons, ih _ _ (fun r hr => hne r (List.mem_cons_of_mem q hr))]
    rcases Nat.lt_or_ge p init.length with hp | hp
    · rw [List.getD_eq_getElem _ 0 (by simpa using hp), List.getD_eq_getElem _ 0 hp]
      exact List.getElem_set_ne (hne q (List.mem_cons_self q rest)) _
    · rw [List.getD_eq_default _ 0 (by simpa using hp), List.getD_eq_default _ 0 hp]

theorem foldl_set_getD_mem {f : ℕ × ℕ → ℕ} {key : ℕ × ℕ → ℕ} :
    ∀ (pairs : List (ℕ × ℕ)) (init : List ℕ) (q0 : ℕ × ℕ),
      q0 ∈ pairs → (pairs.map key).Nodup → key q0 < init.length →
      (pairs.foldl (fun l q => l.set (key q) (f q)) init).getD (key q0) 0 = f q0 := by
  intro pairs
  induction pairs with
  | nil =>
    intro init q0 hmem
    exact absurd hmem (List.not_mem_nil q0)
  | cons q rest ih =>
    intro init q0 hmem hnd hlt
    rw [List.map_cons, List.nodup_cons] at hnd
    rcases List.mem_cons.mp hmem with rfl | hmem2
    · rw [List.foldl_cons]
      rw [foldl_set_getD_not_mem rest _ (key q0) (by
        intro r hr hkey
        exact hnd.1 (hkey ▸ List.mem_map_of_mem key hr))]
      rw [List.getD_eq_getElem _ 0 (by simpa using hlt)]
      rw [List.getElem_set_self]
    · rw [List.foldl_cons]
      exact ih _ q0 hmem2 hnd.2 (by simpa using hlt)

theorem enum_mem_facts {A : List ℕ} {q : ℕ × ℕ} (hq : q ∈ A.enum) :
    q.1 < A.length ∧ A.getD q.1 0 = q.2 := by
  rw [List.enum_eq_enumFrom] at hq
  obtain ⟨i, hi, hieq⟩ := List.mem_iff_getElem.mp hq
  rw [List.getElem_enumFrom] at hieq
  have hlen : i < A.length := by
    have h2 : (A.enumFrom 0).length = A.length := List.enumFrom_length
    omega
  refine ⟨?_, ?_⟩
  · rw [← hieq]
    simpa using hlen
  · rw [← hieq]
    simp only [Nat.zero_add]
    rw [List.getD_eq_getElem A 0 hlen]

theorem enum_map_fst (A : List ℕ) : A.enum.map Prod.fst = List.range A.length := by
  rw [List.enum_eq_enumFrom, List.enumFrom_map_fst, List.range_eq_range']

theorem enum_map_snd (A : List ℕ) : A.enum.map Prod.snd = A := by
  rw [List.enum_eq_enumFrom, List.enumFrom_map_snd]

theorem mem_enum_of_lt {A : List ℕ} {p : ℕ} (hp : p < A.length) :
    (p, A.getD p 0) ∈ A.enum := by
  rw [List.enum_eq_enumFrom]
  have hlen : p < (A.enumFrom 0).length := by simpa using hp
  have hget : (A.enumFrom 0)[p] = (p, A.getD p 0) := by
    rw [List.getElem_enumFrom]
    rw [List.getD_eq_getElem A 0 hp]
    simp
  rw [← hget]
  exact List.getElem_mem hlen

theorem isPermList_of (l : List ℕ) (n : ℕ) (hlen : l.length = n) (hnd : l.Nodup)
    (hmem : ∀ x ∈ l, x < n) : IsPermList n l := by
  have hsub : l.Subperm (List.range n) :=
    List.Nodup.subperm hnd (fun x hx => List.mem_range.mpr (hmem x hx))
  exact hsub.perm_of_length_le (by rw [List.length_range, hlen])

/-- Pair disjointness: no shared index between two reported swap pairs. -/
def PairDisj (pr qr : ℕ × ℕ) : Prop :=
  pr.1 ≠ qr.1 ∧ pr.1 ≠ qr.2 ∧ pr.2 ≠ qr.1 ∧ pr.2 ≠ qr.2

theorem swapLoop_spec {n : ℕ} {pp : List ℕ} (hpp : IsPermList n pp) :
    ∀ (todo : List (ℕ × ℕ)) (pairs : List (ℕ × ℕ)) (visited : List ℕ),
      (∀ q ∈ todo, q.1 < n ∧ pp.getD q.1 0 = q.2) →
      (∀ pr ∈ pairs, pr.1 < pr.2 ∧ pp.getD pr.1 0 = pr.2 ∧ pp.getD pr.2 0 = pr.1 ∧
        pr.1 ∈ visited ∧ pr.2 ∈ visited) →
      (∀ v ∈ visited, ∃ pr, pr ∈ pairs ∧ (v = pr.1 ∨ v = pr.2)) →
      List.Pairwise PairDisj pairs →
      ∃ res, swapLoop pp todo pairs visited = some res ∧
        (∀ pr ∈ res, pr.1 < pr.2 ∧ pp.getD pr.1 0 = pr.2 ∧ pp.getD pr.2 0 = pr.1) ∧
        List.Pairwise PairDisj res := by
  intro todo
  induction todo with
  | nil =>
    intro pairs visited hinv hpairs hvis hpw
    exact ⟨pairs, rfl, fun pr hpr => ⟨(hpairs pr hpr).1, (hpairs pr hpr).2.1,
      (hpairs pr hpr).2.2.1⟩, hpw⟩
  | cons q rest ih =>
    intro pairs visited htodo hpairs hvis hpw
    obtain ⟨idx, target⟩ := q
    obtain ⟨hidx, htgt⟩ := htodo (idx, target) (List.mem_cons_self _ rest)
    have htodo2 : ∀ r ∈ rest, r.1 < n ∧ pp.getD r.1 0 = r.2 :=
      fun r hr => htodo r (List.mem_cons_of_mem _ hr)
    rw [swapLoop]
    by_cases hskip : idx ∈ visited ∨ target = idx
    · rw [if_pos hskip]
      exact ih pairs visited htodo2 hpairs hvis hpw
    · rw [if_neg hskip]
      push_neg at hskip
      obtain ⟨hnv, hnt⟩ := hskip
      have hidx2 : idx < n := hidx
      have htgt2 : pp.getD idx 0 = target := htgt
      have htlt : target < n := by
        rw [← htgt2]
        have hlt : idx < pp.length := by rw [hpp.length_eq]; exact hidx2
        rw [List.getD_eq_getElem pp 0 hlt]
        exact hpp.mem_iff.mp (pp.getElem_mem hlt)
      have htlen : target < pp.length := by rw [hpp.length_eq]; exact htlt
      rw [List.getElem?_eq_getElem htlen]
      simp only [Option.bind_eq_bind, Option.some_bind]
      have hback : pp[target] = pp.getD target 0 := (List.getD_eq_getElem pp 0 htlen).symm
      by_cases hbidx : pp[target] = idx
      · rw [if_pos hbidx]
        -- the fresh pair
        have htv : target ∉ visited := by
          intro htv
          obtain ⟨pr, hprm, hpor⟩ := hvis target htv
          obtain ⟨_, hpr1, hpr2, hv1, hv2⟩ := hpairs pr hprm
          rcases hpor with he | he
          · -- pp[pr.1] = pr.2 and pr.1 = target, pp[target] = idx so pr.2 = idx
            have he2 : pr.2 = idx := by
              rw [← hpr1, ← he, ← hback]
              exact hbidx
            exact hnv (he2 ▸ hv2)
          · have he2 : pr.1 = idx := by
              rw [← hpr2, ← he, ← hback]
              exact hbidx
            exact hnv (he2 ▸ hv1)
        have hpairmem : (min idx target, max idx target) ∉ pairs := by
          intro hmem
          obtain ⟨_, _, _, hv1, _⟩ := hpairs _ hmem
          simp only [] at hv1
          rcases Nat.le_total idx target with hle | hle
          · rw [Nat.min_eq_left hle] at hv1
            exact hnv hv1
          · rw [Nat.min_eq_right hle] at hv1
            exact htv hv1
        rw [if_neg hpairmem]
        have hprops : (min idx target, max idx target).1 < (min idx target, max idx target).2 ∧
            pp.getD (min idx target, max idx target).1 0 = (min idx target, max idx target).2 ∧
            pp.getD (min idx target, max idx target).2 0 = (min idx target, max idx target).1 := by
          rcases Nat.lt_or_ge idx target with hlt | hge
          · rw [Nat.min_eq_left (le_of_lt hlt), Nat.max_eq_right (le_of_lt hlt)]
            exact ⟨hlt, htgt, by rw [← hback, hbidx]⟩
          · have hlt : target < idx := lt_of_le_of_ne hge hnt
            rw [Nat.min_eq_right (le_of_lt hlt), Nat.max_eq_left (le_of_lt hlt)]
            exact ⟨hlt, by rw [← hback, hbidx], htgt⟩
        refine ih (pairs ++ [(min idx target, max idx target)])
          (visited ++ [idx, target]) htodo2 ?_ ?_ ?_
        · intro pr hpr
          rcases List.mem_append.mp hpr with hold | hnew
          · obtain ⟨h1, h2, h3, h4, h5⟩ := hpairs pr hold
            exact ⟨h1, h2, h3, List.mem_append.mpr (Or.inl h4),
              List.mem_append.mpr (Or.inl h5)⟩
          · rw [List.mem_singleton] at hnew
            subst hnew
            refine ⟨hprops.1, hprops.2.1, hprops.2.2, ?_, ?_⟩
            · refine List.mem_append.mpr (Or.inr ?_)
              rcases Nat.le_total idx target with hle | hle
              · rw [Nat.min_eq_left hle]
                simp
              · rw [Nat.min_eq_right hle]
                simp
            · refine List.mem_append.mpr (Or.inr ?_)
              rcases Nat.le_total idx target with hle | hle
              · rw [Nat.max_eq_right hle]
                simp
              · rw [Nat.max_eq_left hle]
                simp
        · intro v hv
          rcases List.mem_append.mp hv with hold | hnew
          · obtain ⟨pr, hprm, hpor⟩ := hvis v hold
            exact ⟨pr, List.mem_append.mpr (Or.inl hprm), hpor⟩
          · refine ⟨(min idx target, max idx target),
              List.mem_append.mpr (Or.inr (List.mem_singleton.mpr rfl)), ?_⟩
            simp only [List.mem_cons, List.mem_singleton] at hnew
            rcases hnew with rfl | hnew
            · rcases Nat.le_total v target with hle | hle
              · left
                rw [Nat.min_eq_left hle]
              · right
                rw [Nat.max_eq_left hle]
            · rcases hnew with rfl | hfalse
              · rcases Nat.le_total idx v with hle | hle
                · right
                  rw [Nat.max_eq_right hle]
                · left
                  rw [Nat.min_eq_right hle]
              · exact absurd hfalse (List.not_mem_nil v)
        · rw [List.pairwise_append]
          refine ⟨hpw, List.pairwise_singleton _ _, ?_⟩
          intro pr hprm pr2 hpr2
          rw [List.mem_singleton] at hpr2
          subst hpr2
          obtain ⟨_, _, _, hv1, hv2⟩ := hpairs pr hprm
          have hd1 : pr.1 ≠ idx := fun he => hnv (he ▸ hv1)
          have hd2 : pr.1 ≠ target := fun he => htv (he ▸ hv1)
          have hd3 : pr.2 ≠ idx := fun he => hnv (he ▸ hv2)
          have hd4 : pr.2 ≠ target := fun he => htv (he ▸ hv2)
          refine ⟨?_, ?_, ?_, ?_⟩
          · rcases Nat.le_total idx target with hle | hle
            · rw [Nat.min_eq_left hle]
              exact hd1
            · rw [Nat.min_eq_right hle]
              exact hd2
          · rcases Nat.le_total idx target with hle | hle
            · rw [Nat.max_eq_right hle]
              exact hd2
            · rw [Nat.max_eq_left hle]
              exact hd1
          · rcases Nat.le_total idx target with hle | hle
            · rw [Nat.min_eq_left hle]
              exact hd3
            · rw [Nat.min_eq_right hle]
              exact hd4
          · rcases Nat.le_total idx target with hle | hle
            · rw [Nat.max_eq_right hle]
              exact hd4
            · rw [Nat.max_eq_left hle]
              exact hd3
      · rw [if_neg hbidx]
        exact ih pairs visited htodo2 hpairs hvis hpw

theorem classify_spec {n : ℕ} {A B : List ℕ} (hA : IsPermList n A) (hB : IsPermList n B) :
    ∃ t, classify_transition A B = some t ∧
      t.positionPermutation.length = n ∧
      (∀ p, p < n → t.positionPermutation.getD p 0 = B.indexOf (A.getD p 0)) ∧
      IsPermList n t.positionPermutation ∧
      (∀ b, b < n → t.bellPermutation.getD b 0 = B.indexOf b) ∧
      t.movements = A.enum.map (mkMove B) ∧
      t.movementCounts.up = A.enum.countP (fun q => decide (mdir B q = "up")) ∧
      t.movementCounts.down = A.enum.countP (fun q => decide (mdir B q = "down")) ∧
      t.movementCounts.stay = A.enum.countP (fun q => decide (mdir B q = "stay")) ∧
      t.distanceCounts = A.enum.foldl (fun m q => bumpKey m (toString (mdist B q))) [] ∧
      t.adjacentOnly = A.enum.all (fun q => decide ((mdist B q).natAbs ≤ 1)) ∧
      (∀ pr ∈ t.swapPairs, pr.1 < pr.2 ∧
        t.positionPermutation.getD pr.1 0 = pr.2 ∧
        t.positionPermutation.getD pr.2 0 = pr.1) ∧
      List.Pairwise PairDisj t.swapPairs := by
  have hAlen := hA.length_eq
  have hBlen := hB.length_eq
  have henum : ∀ q ∈ A.enum, q.2 ∈ B ∧ q.1 < (List.replicate A.length 0).length ∧
      q.2 < (List.replicate A.length 0).length := by
    intro q hq
    obtain ⟨hq1, hq2⟩ := enum_mem_facts hq
    have hq2mem : q.2 ∈ A := by
      rw [← hq2]
      rw [List.getD_eq_getElem A 0 hq1]
      exact A.getElem_mem hq1
    have hq2lt : q.2 < n := hA.mem_iff.mp hq2mem
    refine ⟨hB.mem_iff.mpr hq2lt, ?_, ?_⟩
    · simpa [hAlen] using hq1
    · simpa [hAlen] using hq2lt
  obtain ⟨st2, hloop, hpp, hbp, hmov, hup, hdown, hstay, hdc, hadj⟩ :=
    classifyLoop_eq B A.enum
      { positionPerm := List.replicate A.length 0, bellPerm := List.replicate A.length 0,
        movements := [], counts := ⟨0, 0, 0⟩, distanceCounts := [], adjacentOnly := true }
      henum
  -- characterize the final position permutation
  have hpplen : st2.positionPerm.length = n := by
    rw [hpp, foldl_set_length]
    simp [hAlen]
  have hppget : ∀ p, p < n → st2.positionPerm.getD p 0 = B.indexOf (A.getD p 0) := by
    intro p hple
    rw [hpp]
    have hmemp : (p, A.getD p 0) ∈ A.enum := mem_enum_of_lt (by omega)
    have hnd : (A.enum.map Prod.fst).Nodup := by
      rw [enum_map_fst]
      exact List.nodup_range A.length
    exact foldl_set_getD_mem A.enum _ (p, A.getD p 0) hmemp hnd
      (by simp [hAlen]; omega)
  have hppperm : IsPermList n st2.positionPerm := by
    refine isPermList_of _ n hpplen ?_ ?_
    · have hext : st2.positionPerm =
          (List.range n).map (fun p => B.indexOf (A.getD p 0)) := by
        apply List.ext_getElem
        · simp [hpplen]
        · intro i h1 h2
          have hilt : i < n := by rw [hpplen] at h1; exact h1
          have := hppget i hilt
          rw [List.getD_eq_getElem _ 0 h1] at this
          rw [this]
          simp
      rw [hext]
      refine List.Nodup.map_on ?_ (List.nodup_range n)
      intro p hp p2 hp2 heq
      rw [List.mem_range] at hp hp2
      have hApmem : A.getD p 0 ∈ B := by
        refine hB.mem_iff.mpr ?_
        have : A.getD p 0 ∈ A := by
          rw [List.getD_eq_getElem A 0 (by omega)]
          exact A.getElem_mem (by omega)
        exact hA.mem_iff.mp this
      have hAp2mem : A.getD p2 0 ∈ B := by
        refine hB.mem_iff.mpr ?_
        have : A.getD p2 0 ∈ A := by
          rw [List.getD_eq_getElem A 0 (by omega)]
          exact A.getElem_mem (by omega)
        exact hA.mem_iff.mp this
      have hvals : A.getD p 0 = A.getD p2 0 :=
        (List.indexOf_inj hApmem hAp2mem).mp heq
      exact pstep_inj hA hp hp2 hvals
    · intro x hx
      obtain ⟨i, hi, hieq⟩ := List.mem_iff_getElem.mp hx
      have hilt : i < n := by rw [hpplen] at hi; exact hi
      have := hppget i hilt
      rw [List.getD_eq_getElem _ 0 hi] at this
      rw [← hieq, this]
      have hmemB : A.getD i 0 ∈ B := by
        refine hB.mem_iff.mpr ?_
        have hmemA : A.getD i 0 ∈ A := by
          rw [List.getD_eq_getElem A 0 (by omega)]
          exact A.getElem_mem (by omega)
        exact hA.mem_iff.mp hmemA
      rw [← hBlen]
      exact List.indexOf_lt_length.mpr hmemB
  -- bell permutation entries
  have hbpget : ∀ b, b < n → st2.bellPerm.getD b 0 = B.indexOf b := by
    intro b hb
    rw [hbp]
    have hbmem : b ∈ A := hA.mem_iff.mpr hb
    obtain ⟨i, hi, hieq⟩ := List.mem_iff_getElem.mp hbmem
    have hmemp : (i, b) ∈ A.enum := by
      have := mem_enum_of_lt hi
      rw [List.getD_eq_getElem A 0 hi, hieq] at this
      exact this
    have hnd : (A.enum.map Prod.snd).Nodup := by
      rw [enum_map_snd]
      exact hA.nodup
    exact foldl_set_getD_mem A.enum _ (i, b) hmemp hnd (by simp [hAlen]; omega)
  -- run the swap loop
  have hswapinv : ∀ q ∈ st2.positionPerm.enum, q.1 < n ∧ st2.positionPerm.getD q.1 0 = q.2 := by
    intro q hq
    obtain ⟨h1, h2⟩ := enum_mem_facts hq
    exact ⟨by rw [← hpplen]; exact h1, h2⟩
  obtain ⟨res, hswap, hres1, hres2⟩ := swapLoop_spec hppperm st2.positionPerm.enum [] []
    hswapinv (by intro pr hpr; exact absurd hpr (List.not_mem_nil pr))
    (by intro v hv; exact absurd hv (List.not_mem_nil v))
    List.Pairwise.nil
  have hct : classify_transition A B = some
      { positionPermutation := st2.positionPerm,
        bellPermutation := st2.bellPerm,
        cycles := permutation_cycles st2.positionPerm,
        cycleSignature := cycle_signature_from_cycles (permutation_cycles st2.positionPerm),
        parity := permutation_parity st2.positionPerm,
        sign := permutation_sign (permutation_parity st2.positionPerm),
        adjacentOnly := st2.adjacentOnly,
        swapPairs := res,
        movements := st2.movements,
        movementCounts := st2.counts,
        distanceCounts := st2.distanceCounts } := by
    rw [classify_transition, hloop]
    simp only [Option.bind_eq_bind, Option.some_bind]
    rw [hswap]
    simp only [Option.some_bind]
  exact ⟨_, hct, hpplen, hppget, hppperm, hbpget, by simpa using hmov, by simpa using hup,
    by simpa using hdown, by simpa using hstay, by simpa using hdc,
    by simpa using hadj, hres1, hres2⟩

/-- C3: for rows of equal stage that are permutations of the same bell set,
the position permutation maps each position to the new position of its bell,
the bell permutation maps each bell to its position in the after row, and
composing the after row with the bell permutation reproduces every bell:
`B[bellPermutation[b]] = b`. -/
theorem transition_roundtrip (n : ℕ) (A B : List ℕ)
    (hA : IsPermList n A) (hB : IsPermList n B) :
    ∃ t, classify_transition A B = some t ∧
      (∀ p, p < n → t.positionPermutation.getD p 0 = B.indexOf (A.getD p 0)) ∧
      (∀ b, b < n → t.bellPermutation.getD b 0 = B.indexOf b) ∧
      (∀ b, b < n → B.getD (t.bellPermutation.getD b 0) 0 = b) := by
  obtain ⟨t, hct, hlen, hppget, hppperm, hbpget, _⟩ := classify_spec hA hB
  refine ⟨t, hct, hppget, hbpget, ?_⟩
  intro b hb
  rw [hbpget b hb]
  have hbB : b ∈ B := hB.mem_iff.mpr hb
  have hidx : B.indexOf b < B.length := List.indexOf_lt_length.mpr hbB
  rw [List.getD_eq_getElem B 0 hidx]
  exact List.getElem_indexOf hidx

theorem transition_roundtrip_witness :
    IsPermList 3 [2, 0, 1] ∧ IsPermList 3 [0, 2, 1] ∧
    (∃ t, classify_transition [2, 0, 1] [0, 2, 1] = some t ∧
      (∀ p, p < 3 → t.positionPermutation.getD p 0 = [0, 2, 1].indexOf ([2, 0, 1].getD p 0)) ∧
      (∀ b, b < 3 → t.bellPermutation.getD b 0 = [0, 2, 1].indexOf b) ∧
      (∀ b, b < 3 → [0, 2, 1].getD (t.bellPermutation.getD b 0) 0 = b)) :=
  ⟨by decide, by decide,
    transition_roundtrip 3 [2, 0, 1] [0, 2, 1] (by decide) (by decide)⟩

/-- C4: every reported swap pair `(i, j)` has `i < j` (hence `i ≠ j`, in
`(min, max)` order), the position permutation exchanges `i` and `j`, pairs
are reported exactly once, and no index occurs in two reported pairs. -/
theorem swap_pairs_correct (n : ℕ) (A B : List ℕ)
    (hA : IsPermList n A) (hB : IsPermList n B) :
    ∃ t, classify_transition A B = some t ∧
      (∀ pr ∈ t.swapPairs, pr.1 ≠ pr.2 ∧ pr.1 < pr.2 ∧
        t.positionPermutation.getD pr.1 0 = pr.2 ∧
        t.positionPermutation.getD pr.2 0 = pr.1) ∧
      t.swapPairs.Nodup ∧
      List.Pairwise PairDisj t.swapPairs := by
  obtain ⟨t, hct, _, _, _, _, _, _, _, _, _, _, hres1, hres2⟩ := classify_spec hA hB
  refine ⟨t, hct, ?_, ?_, hres2⟩
  · intro pr hpr
    obtain ⟨h1, h2, h3⟩ := hres1 pr hpr
    exact ⟨Nat.ne_of_lt h1, h1, h2, h3⟩
  · exact hres2.imp (fun hd => fun heq => hd.1 (congrArg Prod.fst heq))

theorem swap_pairs_correct_witness :
    IsPermList 4 [0, 1, 2, 3] ∧ IsPermList 4 [1, 0, 3, 2] ∧
    (∃ t, classify_transition [0, 1, 2, 3] [1, 0, 3, 2] = some t ∧
      (∀ pr ∈ t.swapPairs, pr.1 ≠ pr.2 ∧ pr.1 < pr.2 ∧
        t.positionPermutation.getD pr.1 0 = pr.2 ∧
        t.positionPermutation.getD pr.2 0 = pr.1) ∧
      t.swapPairs.Nodup ∧
      List.Pairwise PairDisj t.swapPairs) :=
  ⟨by decide, by decide,
    swap_pairs_correct 4 [0, 1, 2, 3] [1, 0, 3, 2] (by decide) (by decide)⟩

/-- C5: `adjacentOnly` is true exactly when every movement's signed distance
has absolute value at most 1, and each movement's direction is "stay" when
its distance is 0, "up" when negative, "down" when positive. -/
theorem adjacent_only_characterization (n : ℕ) (A B : List ℕ)
    (hA : IsPermList n A) (hB : IsPermList n B) :
    ∃ t, classify_transition A B = some t ∧
      (t.adjacentOnly = true ↔ ∀ m ∈ t.movements, m.distance.natAbs ≤ 1) ∧
      (∀ m ∈ t.movements,
        (m.direction = "stay" ↔ m.distance = 0) ∧
        (m.direction = "up" ↔ m.distance < 0) ∧
        (m.direction = "down" ↔ 0 < m.distance)) := by
  obtain ⟨t, hct, _, _, _, _, hmov, _, _, _, _, hadj, _, _⟩ := classify_spec hA hB
  refine ⟨t, hct, ?_, ?_⟩
  · rw [hadj, hmov]
    constructor
    · intro hall m hm
      obtain ⟨q, hq, rfl⟩ := List.mem_map.mp hm
      have := List.all_eq_true.mp hall q hq
      rw [decide_eq_true_eq] at this
      exact this
    · intro hmem
      rw [List.all_eq_true]
      intro q hq
      rw [decide_eq_true_eq]
      exact hmem (mkMove B q) (List.mem_map_of_mem _ hq)
  · intro m hm
    rw [hmov] at hm
    obtain ⟨q, hq, rfl⟩ := List.mem_map.mp hm
    have hdir : (mkMove B q).direction = mdir B q := rfl
    have hdist : (mkMove B q).distance = mdist B q := rfl
    rw [hdir, hdist, mdir]
    rcases lt_trichotomy (mdist B q) 0 with hneg | hzero | hposd
    · rw [if_pos hneg]
      refine ⟨⟨fun hc => absurd hc (by decide), fun hc => by omega⟩,
        ⟨fun _ => hneg, fun _ => rfl⟩,
        ⟨fun hc => absurd hc (by decide), fun hc => by omega⟩⟩
    · rw [if_neg (by omega), if_neg (by omega)]
      refine ⟨⟨fun _ => hzero, fun _ => rfl⟩,
        ⟨fun hc => absurd hc (by decide), fun hc => by omega⟩,
        ⟨fun hc => absurd hc (by decide), fun hc => by omega⟩⟩
    · rw [if_neg (by omega), if_pos hposd]
      refine ⟨⟨fun hc => absurd hc (by decide), fun hc => by omega⟩,
        ⟨fun hc => absurd hc (by decide), fun hc => by omega⟩,
        ⟨fun _ => hposd, fun _ => rfl⟩⟩

theorem adjacent_only_characterization_witness :
    IsPermList 3 [0, 1, 2] ∧ IsPermList 3 [2, 0, 1] ∧
    (∃ t, classify_transition [0, 1, 2] [2, 0, 1] = some t ∧
      (t.adjacentOnly = true ↔ ∀ m ∈ t.movements, m.distance.natAbs ≤ 1) ∧
      (∀ m ∈ t.movements,
        (m.direction = "stay" ↔ m.distance = 0) ∧
        (m.direction = "up" ↔ m.distance < 0) ∧
        (m.direction = "down" ↔ 0 < m.distance))) :=
  ⟨by decide, by decide,
    adjacent_only_characterization 3 [0, 1, 2] [2, 0, 1] (by decide) (by decide)⟩

theorem countP_three {α : Type} (p q r : α → Bool) :
    ∀ (l : List α),
      (∀ a ∈ l, (p a ∧ ¬ q a ∧ ¬ r a) ∨ (¬ p a ∧ q a ∧ ¬ r a) ∨ (¬ p a ∧ ¬ q a ∧ r a)) →
      l.countP p + l.countP q + l.countP r = l.length := by
  intro l
  induction l with
  | nil => intro _; rfl
  | cons a t ih =>
    intro hall
    have ha := hall a (List.mem_cons_self a t)
    have ht := ih (fun b hb => hall b (List.mem_cons_of_mem a hb))
    rw [List.countP_cons, List.countP_cons, List.countP_cons, List.length_cons]
    rcases ha with ⟨h1, h2, h3⟩ | ⟨h1, h2, h3⟩ | ⟨h1, h2, h3⟩ <;>
      simp only [h1, h2, h3, Bool.not_eq_true] at * <;>
      simp_all <;> omega

theorem bumpKey_sum (k : String) :
    ∀ (m : List (String × ℕ)), ((bumpKey m k).map Prod.snd).sum = (m.map Prod.snd).sum + 1 := by
  intro m
  induction m with
  | nil => rfl
  | cons kv rest ih =>
    obtain ⟨k0, v0⟩ := kv
    rw [bumpKey]
    by_cases hk : k0 = k
    · rw [if_pos hk]
      simp only [List.map_cons, List.sum_cons]
      omega
    · rw [if_neg hk]
      simp only [List.map_cons, List.sum_cons, ih]
      omega

theorem foldl_bump_sum {α : Type} (f : α → String) :
    ∀ (l : List α) (m : List (String × ℕ)),
      ((l.foldl (fun acc q => bumpKey acc (f q)) m).map Prod.snd).sum =
        (m.map Prod.snd).sum + l.length := by
  intro l
  induction l with
  | nil => intro m; rfl
  | cons a t ih =>
    intro m
    rw [List.foldl_cons, ih, bumpKey_sum]
    simp only [List.length_cons]
    omega

/-- C10: a transition between two valid rows of stage `n` produces exactly
`n` movement records; the up/down/stay direction counts sum to `n`, and the
values of the signed-distance histogram sum to `n` as well. -/
theorem movement_totals (n : ℕ) (A B : List ℕ)
    (hA : IsPermList n A) (hB : IsPermList n B) :
    ∃ t, classify_transition A B = some t ∧
      t.movements.length = n ∧
      t.movementCounts.up + t.movementCounts.down + t.movementCounts.stay = n ∧
      (t.distanceCounts.map Prod.snd).sum = n := by
  obtain ⟨t, hct, _, _, _, _, hmov, hup, hdown, hstay, hdc, _, _, _⟩ := classify_spec hA hB
  have henlen : A.enum.length = n := by
    rw [List.enum_eq_enumFrom, List.enumFrom_length, hA.length_eq]
  refine ⟨t, hct, ?_, ?_, ?_⟩
  · rw [hmov, List.length_map, henlen]
  · rw [hup, hdown, hstay]
    rw [countP_three _ _ _ A.enum ?_, henlen]
    intro q _
    rw [mdir]
    rcases lt_trichotomy (mdist B q) 0 with hneg | hzero | hposd
    · rw [if_pos hneg]
      left
      refine ⟨by simp, by simp, by simp⟩
    · rw [if_neg (by omega), if_neg (by omega)]
      right
      right
      refine ⟨by simp, by simp, by simp⟩
    · rw [if_neg (by omega), if_pos hposd]
      right
      left
      refine ⟨by simp, by simp, by simp⟩
  · rw [hdc, foldl_bump_sum]
    simpa using henlen

theorem movement_totals_witness :
    IsPermList 4 [3, 1, 0, 2] ∧ IsPermList 4 [0, 1, 2, 3] ∧
    (∃ t, classify_transition [3, 1, 0, 2] [0, 1, 2, 3] = some t ∧
      t.movements.length = 4 ∧
      t.movementCounts.up + t.movementCounts.down + t.movementCounts.stay = 4 ∧
      (t.distanceCounts.map Prod.snd).sum = 4) :=
  ⟨by decide, by decide,
    movement_totals 4 [3, 1, 0, 2] [0, 1, 2, 3] (by decide) (by decide)⟩

theorem classifyLoop_none (B : List ℕ) :
    ∀ (pairs : List (ℕ × ℕ)) (st : ClassifyState),
      (∃ q ∈ pairs, q.2 ∉ B) →
      (∀ q ∈ pairs, q.1 < st.positionPerm.length ∧ q.2 < st.bellPerm.length) →
      classifyLoop B pairs st = none := by
  intro pairs
  induction pairs with
  | nil =>
    intro st hex _
    obtain ⟨q, hq, _⟩ := hex
    exact absurd hq (List.not_mem_nil q)
  | cons q rest ih =>
    intro st hex hbound
    obtain ⟨pos, bell⟩ := q
    rw [classifyLoop]
    by_cases hqB : bell ∈ B
    · obtain ⟨hp1, hp2⟩ := hbound (pos, bell) (List.mem_cons_self _ rest)
      have hstep : ∃ st2, classifyStep B st pos bell = some st2 := by
        rw [classifyStep, listIndex, if_pos hqB]
        simp only [Option.bind_eq_bind, Option.some_bind]
        rw [setAt, if_pos hp1]
        simp only [Option.some_bind]
        rw [setAt, if_pos hp2]
        simp only [Option.some_bind]
        exact ⟨_, rfl⟩
      obtain ⟨st2, hst2⟩ := hstep
      rw [hst2]
      simp only [Option.bind_eq_bind, Option.some_bind]
      have hex2 : ∃ r ∈ rest, r.2 ∉ B := by
        obtain ⟨r, hr, hrB⟩ := hex
        rcases List.mem_cons.mp hr with rfl | hr2
        · exact absurd hqB hrB
        · exact ⟨r, hr2, hrB⟩
      refine ih st2 hex2 ?_
      intro r hr
      obtain ⟨h1, h2⟩ := hbound r (List.mem_cons_of_mem _ hr)
      -- the step preserves both lengths
      rw [classifyStep, listIndex, if_pos hqB] at hst2
      simp only [Option.bind_eq_bind, Option.some_bind] at hst2
      rw [setAt, if_pos hp1] at hst2
      simp only [Option.some_bind] at hst2
      rw [setAt, if_pos hp2] at hst2
      simp only [Option.some_bind, Option.some.injEq] at hst2
      rw [← hst2]
      constructor
      · simpa using h1
      · simpa using h2
    · rw [classifyStep, listIndex, if_neg hqB]
      rfl

/-- C8 (amended): there is no up-front validation of the rows.  What does
hold: classification fails whenever the after row is missing a bell of the
before row (the error surfaces at the first failed bell lookup, after work
has begun), and classification succeeds whenever the after row is a
permutation of the same stage.  Rows of unequal length are not by themselves
fatal: one longer after row completes normally while another fails only in
the middle of the swap-pair scan (see the counterexample). -/
theorem classify_error_iff_missing (n : ℕ) (A B : List ℕ) (hA : IsPermList n A) :
    ((∃ b ∈ A, b ∉ B) → classify_transition A B = none) ∧
    (IsPermList n B → (classify_transition A B).isSome = true) := by
  constructor
  · intro hex
    rw [classify_transition]
    have hnone : classifyLoop B A.enum
        { positionPerm := List.replicate A.length 0, bellPerm := List.replicate A.length 0,
          movements := [], counts := ⟨0, 0, 0⟩, distanceCounts := [],
          adjacentOnly := true } = none := by
      refine classifyLoop_none B A.enum _ ?_ ?_
      · obtain ⟨b, hbA, hbB⟩ := hex
        obtain ⟨i, hi, hieq⟩ := List.mem_iff_getElem.mp hbA
        have hmem := mem_enum_of_lt hi
        rw [List.getD_eq_getElem A 0 hi, hieq] at hmem
        exact ⟨(i, b), hmem, hbB⟩
      · intro q hq
        obtain ⟨h1, h2⟩ := enum_mem_facts hq
        have h2mem : q.2 ∈ A := by
          rw [← h2, List.getD_eq_getElem A 0 h1]
          exact A.getElem_mem h1
        have h2lt : q.2 < n := hA.mem_iff.mp h2mem
        have hAl := hA.length_eq
        constructor
        · simpa using h1
        · simp only [List.length_replicate]
          omega
    rw [hnone]
    rfl
  · intro hB
    obtain ⟨t, hct, _⟩ := classify_spec hA hB
    rw [hct]
    rfl

/-- C8 counterexample: two valid rows of unequal length for which
classification completes without any error, refuting the claim that unequal
lengths are always a fatal validation failure.  The last conjunct shows the
absence of an up-front check cuts both ways: for another longer after row the
computation does fail, but only mid-way through the swap-pair scan. -/
theorem classify_unequal_length_counterexample :
    IsPermList 2 [0, 1] ∧ IsPermList 3 [0, 1, 2] ∧ IsPermList 3 [2, 0, 1] ∧
    [0, 1].length ≠ [0, 1, 2].length ∧
    (classify_transition [0, 1] [0, 1, 2]).isSome = true ∧
    classify_transition [0, 1] [2, 0, 1] = none := by
  refine ⟨by decide, by decide, by decide, by decide, ?_, ?_⟩ <;> rfl

theorem classify_error_iff_missing_witness :
    IsPermList 3 [0, 1, 2] ∧
    (((∃ b ∈ ([0, 1, 2] : List ℕ), b ∉ ([0, 1] : List ℕ)) →
        classify_transition [0, 1, 2] [0, 1] = none) ∧
      (IsPermList 3 [0, 1] →
        (classify_transition [0, 1, 2] [0, 1]).isSome = true)) :=
  ⟨by decide, classify_error_iff_missing 3 [0, 1, 2] [0, 1] (by decide)⟩

/-! ### SymmetricGroupCataloger (`build_symmetric_group_catalog`) -/

/-- Structural helper for `lexPerms`; the fuel always equals the length of
the remaining element list, so the first arm is never reached on the actual
call pattern. -/
def lexPermsAux : ℕ → List ℕ → List (List ℕ)
  | _, [] => [[]]
  | 0, _ :: _ => [[]]
  | fuel + 1, s =>
    s.attach.flatMap (fun x =>
      (lexPermsAux fuel (s.erase x.1)).map (fun t => x.1 :: t))

/-- Enumeration of the permutations of a list in the order produced by
Python `itertools.permutations`: lexicographic in the positions of `s`. -/
def lexPerms (s : List ℕ) : List (List ℕ) :=
  lexPermsAux s.length s

theorem lexPermsAux_length_eq :
    ∀ (fuel : ℕ) (s : List ℕ), s.length = fuel →
      lexPermsAux fuel s =
        if s = [] then [[]]
        else s.attach.flatMap (fun x =>
          (lexPermsAux (fuel - 1) (s.erase x.1)).map (fun t => x.1 :: t)) := by
  intro fuel s hs
  match fuel, s with
  | fuel, [] =>
    rw [if_pos rfl]
    cases fuel with
    | zero => rfl
    | succ k => rfl
  | 0, a :: r => simp at hs
  | fuel + 1, a :: r =>
    rw [if_neg (by simp)]
    rfl

theorem lexPerms_eq_nonempty (s : List ℕ) (h : s ≠ []) :
    lexPerms s = s.attach.flatMap (fun x =>
      (lexPerms (s.erase x.1)).map (fun t => x.1 :: t)) := by
  rw [lexPerms, lexPermsAux_length_eq s.length s rfl, if_neg h]
  have hcongr : ∀ x ∈ s.attach,
      (lexPermsAux (s.length - 1) (s.erase x.1)).map (fun t => x.1 :: t) =
      (lexPerms (s.erase x.1)).map (fun t => x.1 :: t) := by
    intro x _
    have herase : (s.erase x.1).length = s.length - 1 :=
      List.length_erase_of_mem x.2
    rw [lexPerms, herase]
  rw [List.flatMap]
  rw [List.map_congr_left hcongr]
  rfl

/-- Python `sorted(set(stages))`. -/
def sortDedupStages (stages : List ℕ) : List ℕ :=
  stages.dedup.insertionSort (· ≤ ·)

/-- Counter initialized as `Counter(even=0, odd=0)`. -/
structure ParityCounts where
  even : ℕ
  odd : ℕ
deriving DecidableEq

def bumpParity (pc : ParityCounts) (parity : String) : ParityCounts :=
  { even := pc.even + (if parity = "even" then 1 else 0),
    odd := pc.odd + (if parity = "odd" then 1 else 0) }

/-- Per-stage catalog entry.  The claims only concern `stage`, `order`,
`parityCounts` and `cycleTypeCounts`; the per-signature sample lists and the
canonical generator list of the Python dict are not referenced by any claim
and are omitted from the embedding. -/
structure CatalogEntry where
  stage : ℕ
  order : ℕ
  parityCounts : ParityCounts
  cycleTypeCounts : List (String × ℕ)
deriving DecidableEq

/-- Body of the enumeration loop of `build_symmetric_group_catalog`. -/
def catalogStep (acc : ParityCounts × List (String × ℕ)) (perm : List ℕ) :
    ParityCounts × List (String × ℕ) :=
  let cycles := permutation_cycles perm
  let parity := permutation_parity perm
  let signature := cycle_signature_from_cycles cycles
  (bumpParity acc.1 parity, bumpKey acc.2 signature)

/-- Embedding of `build_symmetric_group_catalog`: for each distinct stage in
ascending order, exhaustively enumerate all `stage!` permutations and build
the parity and cycle-type histograms; `order = math.factorial(stage)`.  No
stage bound of any kind is imposed. -/
def build_symmetric_group_catalog (stages : List ℕ) : List CatalogEntry :=
  (sortDedupStages stages).map (fun stage =>
    let res := (lexPerms (List.range stage)).foldl catalogStep (⟨0, 0⟩, [])
    { stage := stage, order := stage.factorial,
      parityCounts := res.1, cycleTypeCounts := res.2 })

theorem lexPerms_length : ∀ (m : ℕ) (s : List ℕ), s.length = m →
    (lexPerms s).length = m.factorial := by
  intro m
  induction m using Nat.strong_induction_on with
  | _ m ih =>
    intro s hs
    by_cases hnil : s = []
    · subst hnil
      simp at hs
      subst hs
      rfl
    · rw [lexPerms_eq_nonempty s hnil]
      rw [List.length_flatMap]
      have hconst : ∀ x ∈ s.attach,
          ((lexPerms (s.erase x.1)).map (fun t => x.1 :: t)).length = (m - 1).factorial := by
        intro x _
        rw [List.length_map]
        have herase : (s.erase x.1).length = m - 1 := by
          have := List.length_erase_of_mem x.2
          omega
        have hmpos : 0 < m := by
          have := List.length_pos.mpr hnil
          omega
        exact ih (m - 1) (by omega) _ herase
      have hconst2 : ∀ x ∈ s.attach,
          (List.length ∘ fun x => (lexPerms (s.erase x.1)).map (fun t => x.1 :: t)) x =
            (m - 1).factorial := fun x hx => hconst x hx
      rw [List.map_congr_left hconst2]
      rw [List.map_const']
      rw [List.sum_replicate]
      have hlen : s.attach.length = m := by
        rw [List.length_attach]
        exact hs
      rw [hlen]
      have hmpos : 0 < m := by
        have := List.length_pos.mpr hnil
        omega
      obtain ⟨k, rfl⟩ := Nat.exists_eq_add_of_lt hmpos
      simp only [Nat.zero_add] at *
      rw [Nat.factorial_succ]
      simp [Nat.succ_sub_one, Nat.smul_one_eq_cast]

theorem lexPerms_mem : ∀ (m : ℕ) (s : List ℕ), s.length = m →
    ∀ t : List ℕ, t ∈ lexPerms s ↔ List.Perm t s := by
  intro m
  induction m using Nat.strong_induction_on with
  | _ m ih =>
    intro s hs t
    by_cases hnil : s = []
    · subst hnil
      show t ∈ [[]] ↔ _
      simp [List.perm_nil]
    · rw [lexPerms_eq_nonempty s hnil]
      rw [List.mem_flatMap]
      constructor
      · rintro ⟨x, hx, hmem⟩
        obtain ⟨r, hr, rfl⟩ := List.mem_map.mp hmem
        have herase : (s.erase x.1).length = m - 1 := by
          have := List.length_erase_of_mem x.2
          have := List.length_pos.mpr hnil
          omega
        have hmpos : 0 < m := by
          have := List.length_pos.mpr hnil
          omega
        have hrperm : List.Perm r (s.erase x.1) :=
          (ih (m - 1) (by omega) _ herase r).mp hr
        exact List.cons_perm_iff_perm_erase.mpr ⟨x.2, hrperm⟩
      · intro hperm
        have hne : t ≠ [] := by
          intro hteq
          subst hteq
          exact hnil hperm.symm.eq_nil
        obtain ⟨a, r, rfl⟩ := List.exists_cons_of_ne_nil hne
        obtain ⟨haS, hrperm⟩ := List.cons_perm_iff_perm_erase.mp hperm
        have herase : (s.erase a).length = m - 1 := by
          have := List.length_erase_of_mem haS
          have := List.length_pos.mpr hnil
          omega
        have hmpos : 0 < m := by
          have := List.length_pos.mpr hnil
          omega
        refine ⟨⟨a, haS⟩, List.mem_attach s _, ?_⟩
        refine List.mem_map.mpr ⟨r, ?_, rfl⟩
        exact (ih (m - 1) (by omega) _ herase r).mpr hrperm

theorem lexPerms_nodup : ∀ (m : ℕ) (s : List ℕ), s.length = m → s.Nodup →
    (lexPerms s).Nodup := by
  intro m
  induction m using Nat.strong_induction_on with
  | _ m ih =>
    intro s hs hnd
    by_cases hnil : s = []
    · subst hnil
      show List.Nodup [[]]
      simp
    · rw [lexPerms_eq_nonempty s hnil]
      rw [List.nodup_flatMap]
      have hmpos : 0 < m := by
        have := List.length_pos.mpr hnil
        omega
      constructor
      · intro x _
        refine List.Nodup.map ?_ ?_
        · intro r1 r2 he
          exact List.tail_eq_of_cons_eq he
        · have herase : (s.erase x.1).length = m - 1 := by
            have := List.length_erase_of_mem x.2
            omega
          exact ih (m - 1) (by omega) _ herase (hnd.erase x.1)
      · have hattach : s.attach.Nodup := List.nodup_attach.mpr hnd
        refine hattach.pairwise_of_forall_ne ?_
        intro x hx y hy hxy
        intro l hlx hly
        obtain ⟨r1, _, rfl⟩ := List.mem_map.mp hlx
        obtain ⟨r2, _, he⟩ := List.mem_map.mp hly
        have hhead : y.1 = x.1 := List.head_eq_of_cons_eq he
        exact hxy (Subtype.ext hhead.symm)

theorem catalog_fold_spec :
    ∀ (perms : List (List ℕ)) (acc : ParityCounts × List (String × ℕ)),
      (perms.foldl catalogStep acc).1.even =
          acc.1.even + perms.countP (fun p => decide (permutation_parity p = "even")) ∧
      (perms.foldl catalogStep acc).1.odd =
          acc.1.odd + perms.countP (fun p => decide (permutation_parity p = "odd")) ∧
      ((perms.foldl catalogStep acc).2.map Prod.snd).sum =
          (acc.2.map Prod.snd).sum + perms.length := by
  intro perms
  induction perms with
  | nil => intro acc; refine ⟨by simp, by simp, by simp⟩
  | cons p rest ih =>
    intro acc
    rw [List.foldl_cons]
    obtain ⟨h1, h2, h3⟩ := ih (catalogStep acc p)
    refine ⟨?_, ?_, ?_⟩
    · rw [h1, List.countP_cons]
      show (bumpParity acc.1 (permutation_parity p)).even + _ = _
      rw [bumpParity]
      simp only [decide_eq_true_eq]
      omega
    · rw [h2, List.countP_cons]
      show (bumpParity acc.1 (permutation_parity p)).odd + _ = _
      rw [bumpParity]
      simp only [decide_eq_true_eq]
      omega
    · rw [h3]
      show ((bumpKey acc.2 _).map Prod.snd).sum + _ = _
      rw [bumpKey_sum]
      simp only [List.length_cons]
      omega

/-- Python swap of the first two one-line entries; the pairing used to show
that even and odd permutations are equinumerous for `n ≥ 2`. -/
def swapFirstTwo : List ℕ → List ℕ
  | a :: b :: t => b :: a :: t
  | l => l

theorem swapFirstTwo_involutive (l : List ℕ) : swapFirstTwo (swapFirstTwo l) = l := by
  match l with
  | [] => rfl
  | [a] => rfl
  | a :: b :: t => rfl

theorem swapFirstTwo_perm (l : List ℕ) : List.Perm (swapFirstTwo l) l := by
  match l with
  | [] => exact List.Perm.refl _
  | [a] => exact List.Perm.refl _
  | a :: b :: t => exact List.Perm.swap a b t

theorem count_inversions_swapFirstTwo {a b : ℕ} (t : List ℕ) (hab : a ≠ b) :
    count_inversions (a :: b :: t) % 2 ≠ count_inversions (b :: a :: t) % 2 := by
  rw [count_inversions_cons, count_inversions_cons, List.countP_cons,
    count_inversions_cons, count_inversions_cons, List.countP_cons]
  have hone : (if decide (b < a) = true then 1 else 0) +
      (if decide (a < b) = true then 1 else 0) = 1 := by
    rcases Nat.lt_trichotomy a b with h | h | h
    · rw [if_neg (by simpa using (by omega : ¬ b < a)), if_pos (by simpa using h)]
    · exact absurd h hab
    · rw [if_pos (by simpa using h), if_neg (by simpa using (by omega : ¬ a < b))]
  omega

theorem parity_swapFirstTwo {n : ℕ} (hn : 2 ≤ n) {p : List ℕ} (hp : IsPermList n p) :
    (permutation_parity (swapFirstTwo p) = "odd" ↔ permutation_parity p = "even") ∧
    (permutation_parity (swapFirstTwo p) = "even" ↔ permutation_parity p = "odd") := by
  have hlen := hp.length_eq
  match p, hp with
  | a :: b :: t, hp =>
    have hab : a ≠ b := by
      have hnd := hp.nodup
      intro he
      subst he
      simp at hnd
    have hne := count_inversions_swapFirstTwo t (fun he => hab he.symm)
    rw [swapFirstTwo]
    rw [permutation_parity_eq, permutation_parity_eq]
    by_cases h1 : count_inversions (b :: a :: t) % 2 = 0 <;>
      by_cases h2 : count_inversions (a :: b :: t) % 2 = 0 <;>
      simp only [h1, h2, if_pos, if_neg] <;> simp_all <;> omega
  | [], hp =>
    exfalso
    simp at hlen
    omega
  | [a], hp =>
    exfalso
    simp at hlen
    omega

theorem lexPerms_even_eq_odd {n : ℕ} (hn : 2 ≤ n) :
    (lexPerms (List.range n)).countP (fun p => decide (permutation_parity p = "even")) =
    (lexPerms (List.range n)).countP (fun p => decide (permutation_parity p = "odd")) := by
  set L := lexPerms (List.range n) with hL
  have hlenr : (List.range n).length = n := List.length_range n
  have hmem : ∀ t, t ∈ L ↔ List.Perm t (List.range n) :=
    lexPerms_mem n (List.range n) hlenr
  have hnd : L.Nodup := lexPerms_nodup n (List.range n) hlenr (List.nodup_range n)
  have hinj : Function.Injective swapFirstTwo :=
    Function.LeftInverse.injective swapFirstTwo_involutive
  have hmapnd : (L.map swapFirstTwo).Nodup := hnd.map hinj
  have hsub : L.map swapFirstTwo ⊆ L := by
    intro x hx
    obtain ⟨p, hp, rfl⟩ := List.mem_map.mp hx
    rw [hmem]
    exact (swapFirstTwo_perm p).trans ((hmem p).mp hp)
  have hperm : List.Perm (L.map swapFirstTwo) L := by
    refine (hmapnd.subperm hsub).perm_of_length_le ?_
    rw [List.length_map]
  have step1 : L.countP (fun p => decide (permutation_parity p = "odd")) =
      (L.map swapFirstTwo).countP (fun p => decide (permutation_parity p = "odd")) :=
    (hperm.countP_eq _).symm
  rw [step1, List.countP_map]
  apply List.countP_congr
  intro p hp
  have hpperm : IsPermList n p := (hmem p).mp hp
  have hflip := (parity_swapFirstTwo hn hpperm).1
  constructor
  · intro he
    rw [decide_eq_true_eq] at he
    simp only [Function.comp_apply, decide_eq_true_eq]
    exact hflip.mpr he
  · intro ho
    simp only [Function.comp_apply, decide_eq_true_eq] at ho
    rw [decide_eq_true_eq]
    exact hflip.mp ho

theorem parity_even_or_odd (p : List ℕ) :
    permutation_parity p = "even" ∨ permutation_parity p = "odd" := by
  rw [permutation_parity_eq]
  by_cases h : count_inversions p % 2 = 0
  · left
    rw [if_pos h]
  · right
    rw [if_neg h]

theorem lexPerms_even_add_odd (n : ℕ) :
    (lexPerms (List.range n)).countP (fun p => decide (permutation_parity p = "even")) +
    (lexPerms (List.range n)).countP (fun p => decide (permutation_parity p = "odd")) =
    n.factorial := by
  have hlen : (lexPerms (List.range n)).length = n.factorial :=
    lexPerms_length n (List.range n) (List.length_range n)
  rw [← hlen]
  rw [List.length_eq_countP_add_countP (fun p => decide (permutation_parity p = "even"))]
  congr 1
  apply List.countP_congr
  intro p _
  rcases parity_even_or_odd p with h | h <;> simp [h]

/-- C7: for every stage in the catalog, the cycle-signature counts sum to
`stage!`, the parity counts sum to `stage!`, and for stage at least 2 the
even and odd counts are each exactly `stage!/2`; concretely, stage 3 yields
order 6, cycle-type counts 1-1-1 : 1, 2-1 : 3, 3 : 2, and parity counts
even 3, odd 3. -/
theorem symmetric_group_catalog_exact (stages : List ℕ) :
    (∀ e ∈ build_symmetric_group_catalog stages,
      e.order = e.stage.factorial ∧
      (e.cycleTypeCounts.map Prod.snd).sum = e.stage.factorial ∧
      e.parityCounts.even + e.parityCounts.odd = e.stage.factorial ∧
      (2 ≤ e.stage → e.parityCounts.even = e.stage.factorial / 2 ∧
        e.parityCounts.odd = e.stage.factorial / 2)) ∧
    build_symmetric_group_catalog [3] =
      [{ stage := 3, order := 6, parityCounts := ⟨3, 3⟩,
         cycleTypeCounts := [("1-1-1", 1), ("2-1", 3), ("3", 2)] }] := by
  constructor
  · intro e he
    rw [build_symmetric_group_catalog] at he
    obtain ⟨stage, hst, rfl⟩ := List.mem_map.mp he
    obtain ⟨h1, h2, h3⟩ := catalog_fold_spec (lexPerms (List.range stage)) (⟨0, 0⟩, [])
    simp only [List.map_nil, List.sum_nil, Nat.zero_add] at h1 h2 h3
    have hfl := lexPerms_length stage (List.range stage) (List.length_range stage)
    have hsum := lexPerms_even_add_odd stage
    refine ⟨rfl, ?_, ?_, ?_⟩
    · show (((lexPerms (List.range stage)).foldl catalogStep (⟨0, 0⟩, [])).2.map
        Prod.snd).sum = stage.factorial
      rw [h3, hfl]
    · show ((lexPerms (List.range stage)).foldl catalogStep (⟨0, 0⟩, [])).1.even +
        ((lexPerms (List.range stage)).foldl catalogStep (⟨0, 0⟩, [])).1.odd =
        stage.factorial
      rw [h1, h2]
      simpa using hsum
    · intro hstage2
      have hstage3 : 2 ≤ stage := hstage2
      have heq := lexPerms_even_eq_odd hstage3
      constructor
      · show ((lexPerms (List.range stage)).foldl catalogStep (⟨0, 0⟩, [])).1.even =
          stage.factorial / 2
        rw [h1]
        omega
      · show ((lexPerms (List.range stage)).foldl catalogStep (⟨0, 0⟩, [])).1.odd =
          stage.factorial / 2
        rw [h2]
        omega
  · decide

theorem symmetric_group_catalog_exact_witness :
    ({ stage := 2, order := 2, parityCounts := ⟨1, 1⟩,
       cycleTypeCounts := [("1-1", 1), ("2", 1)] } : CatalogEntry) ∈
        build_symmetric_group_catalog [2] ∧
    (({ stage := 2, order := 2, parityCounts := ⟨1, 1⟩,
        cycleTypeCounts := [("1-1", 1), ("2", 1)] } : CatalogEntry).order =
      Nat.factorial 2 ∧
     ((([("1-1", 1), ("2", 1)] : List (String × ℕ)).map Prod.snd).sum =
      Nat.factorial 2) ∧
     (1 + 1 = Nat.factorial 2) ∧
     (2 ≤ 2 → 1 = Nat.factorial 2 / 2 ∧ 1 = Nat.factorial 2 / 2)) :=
  ⟨by decide,
    (symmetric_group_catalog_exact [2]).1 _ (by decide)⟩

/-- C9 (amended): `build_symmetric_group_catalog` imposes no stage bound and
has no error path: for every requested list of stages it returns one normal
catalog entry per distinct stage (in ascending order), each with
`order = stage!`, rather than rejecting oversized stages.  Bounding the
stage is left entirely to callers. -/
theorem catalog_no_stage_bound (stages : List ℕ) :
    ((build_symmetric_group_catalog stages).map (fun e => e.stage) =
      sortDedupStages stages) ∧
    (∀ e ∈ build_symmetric_group_catalog stages, e.order = e.stage.factorial) := by
  constructor
  · rw [build_symmetric_group_catalog, List.map_map]
    have hid : ∀ s ∈ sortDedupStages stages,
        ((fun e => CatalogEntry.stage e) ∘ fun stage =>
          let res := (lexPerms (List.range stage)).foldl catalogStep (⟨0, 0⟩, [])
          ({ stage := stage, order := stage.factorial,
             parityCounts := res.1, cycleTypeCounts := res.2 } : CatalogEntry)) s = s :=
      fun s _ => rfl
    rw [List.map_congr_left hid]
    exact List.map_id _
  · intro e he
    rw [build_symmetric_group_catalog] at he
    obtain ⟨s, _, rfl⟩ := List.mem_map.mp he
    rfl

/-- C9 counterexample: a stage well beyond the practical bound suggested by
the spec (`n ≤ 8`) is processed normally; the function returns a regular
entry whose order field is the full `9! = 362880`, with no error of any
kind. -/
theorem catalog_oversized_counterexample :
    (build_symmetric_group_catalog [9]).map (fun e => (e.stage, e.order)) =
      [(9, 362880)] := by
  rfl

theorem catalog_no_stage_bound_witness :
    ((build_symmetric_group_catalog [9]).map (fun e => e.stage) =
      sortDedupStages [9]) ∧
    (∀ e ∈ build_symmetric_group_catalog [9], e.order = e.stage.factorial) :=
  catalog_no_stage_bound [9]

/-! ### FamilyAggregator (`build_permutation_families`) -/

/-- One element of a structure's `summary.uniquePositionPermutations` list. -/
structure UniquePermEntry where
  permutation : List ℕ
  cycles : List (List ℕ)
  cycleSignature : String
  parity : String
  sign : ℤ
  swapPairs : List (ℕ × ℕ)
  adjacentOnly : Bool
  count : ℕ
deriving DecidableEq

/-- The parts of a per-sequence structure that the aggregator reads. -/
structure SequenceSummary where
  id : String
  stage : ℕ
  uniquePerms : List UniquePermEntry
deriving DecidableEq

/-- A family record while the `families` dict is being built; `stages` is
the Python set before the final `sorted(...)`. -/
structure FamilyAcc where
  id : String
  positionPermutation : List ℕ
  cycles : List (List ℕ)
  cycleSignature : String
  parity : String
  sign : ℤ
  swapPairs : List (ℕ × ℕ)
  adjacentOnly : Bool
  occurrenceCount : ℕ
  stages : Finset ℕ
  structures : List (String × ℕ × ℕ)
deriving DecidableEq

/-- A finalized family record (`stages` sorted ascending). -/
structure Family where
  id : String
  positionPermutation : List ℕ
  cycles : List (List ℕ)
  cycleSignature : String
  parity : String
  sign : ℤ
  swapPairs : List (ℕ × ℕ)
  adjacentOnly : Bool
  occurrenceCount : ℕ
  stages : List ℕ
  structures : List (String × ℕ × ℕ)
deriving DecidableEq

/-- Python `"perm_" + "".join(str(x) for x in key)`. -/
def mkFamilyId (key : List ℕ) : String :=
  String.append "perm_" (String.join (key.map toString))

/-- The freshly created dict for a key not yet present. -/
def newFamily (key : List ℕ) (e : UniquePermEntry) : FamilyAcc :=
  { id := mkFamilyId key, positionPermutation := e.permutation,
    cycles := e.cycles, cycleSignature := e.cycleSignature, parity := e.parity,
    sign := e.sign, swapPairs := e.swapPairs, adjacentOnly := e.adjacentOnly,
    occurrenceCount := 0, stages := ∅, structures := [] }

/-- The unconditional mutations performed on the (fresh or found) family. -/
def famUpdate (sid : String) (stage : ℕ) (e : UniquePermEntry) (f : FamilyAcc) :
    FamilyAcc :=
  { f with occurrenceCount := f.occurrenceCount + e.count,
           stages := insert stage f.stages,
           structures := f.structures ++ [(sid, stage, e.count)] }

/-- Processing of one `entry in unique_perms`: the `families` dict is an
insertion-ordered association list keyed by the permutation. -/
def addEntry (sid : String) (stage : ℕ) (fams : List (List ℕ × FamilyAcc))
    (e : UniquePermEntry) : List (List ℕ × FamilyAcc) :=
  if e.permutation ∈ fams.map Prod.fst then
    fams.map (fun kv =>
      if kv.1 = e.permutation then (kv.1, famUpdate sid stage e kv.2) else kv)
  else
    fams ++ [(e.permutation, famUpdate sid stage e (newFamily e.permutation e))]

def addStructure (fams : List (List ℕ × FamilyAcc)) (s : SequenceSummary) :
    List (List ℕ × FamilyAcc) :=
  s.uniquePerms.foldl (addEntry s.id s.stage) fams

/-- Final record: `entry["stages"] = sorted(entry["stages"])`. -/
def finalizeFam (f : FamilyAcc) : Family :=
  { id := f.id, positionPermutation := f.positionPermutation, cycles := f.cycles,
    cycleSignature := f.cycleSignature, parity := f.parity, sign := f.sign,
    swapPairs := f.swapPairs, adjacentOnly := f.adjacentOnly,
    occurrenceCount := f.occurrenceCount,
    stages := f.stages.sort (· ≤ ·), structures := f.structures }

/-- Python sort key `(item["cycleSignature"], item["id"])`, as a relation. -/
def famLE (f g : Family) : Prop :=
  f.cycleSignature < g.cycleSignature ∨
    (f.cycleSignature = g.cycleSignature ∧ f.id ≤ g.id)

instance : DecidableRel famLE := fun f g =>
  inferInstanceAs (Decidable (_ ∨ _))

instance : IsTotal Family famLE := by
  constructor
  intro f g
  rcases lt_trichotomy f.cycleSignature g.cycleSignature with h | h | h
  · exact Or.inl (Or.inl h)
  · rcases le_total f.id g.id with h2 | h2
    · exact Or.inl (Or.inr ⟨h, h2⟩)
    · exact Or.inr (Or.inr ⟨h.symm, h2⟩)
  · exact Or.inr (Or.inl h)

instance : IsTrans Family famLE := by
  constructor
  intro a b c hab hbc
  rcases hab with h1 | ⟨h1, h1b⟩ <;> rcases hbc with h2 | ⟨h2, h2b⟩
  · exact Or.inl (h1.trans h2)
  · exact Or.inl (h2 ▸ h1)
  · exact Or.inl (h1 ▸ h2)
  · exact Or.inr ⟨h1.trans h2, h1b.trans h2b⟩

/-- Embedding of `build_permutation_families`. -/
def build_permutation_families (structures : List SequenceSummary) : List Family :=
  let fams := structures.foldl addStructure []
  (fams.map (fun kv => finalizeFam kv.2)).insertionSort famLE

/-- Canonical cycle signature of a position permutation. -/
def canonicalSig (key : List ℕ) : String :=
  cycle_signature_from_cycles (permutation_cycles key)

/-- The aggregation consumes a stream of `(sequenceId, stage, entry)` triples. -/
def mkTriples (s : SequenceSummary) : List (String × ℕ × UniquePermEntry) :=
  s.uniquePerms.map (fun e => (s.id, s.stage, e))

def tripStep (fams : List (List ℕ × FamilyAcc)) (tr : String × ℕ × UniquePermEntry) :
    List (List ℕ × FamilyAcc) :=
  addEntry tr.1 tr.2.1 fams tr.2.2

/-- Total count contributed to a key by a triple stream. -/
def occT (key : List ℕ) (T : List (String × ℕ × UniquePermEntry)) : ℕ :=
  ((T.filter (fun tr => decide (tr.2.2.permutation = key))).map
    (fun tr => tr.2.2.count)).sum

/-- Set of stages contributed to a key by a triple stream. -/
def stagesT (key : List ℕ) (T : List (String × ℕ × UniquePermEntry)) : Finset ℕ :=
  ((T.filter (fun tr => decide (tr.2.2.permutation = key))).map
    (fun tr => tr.2.1)).toFinset

theorem occT_cons (key : List ℕ) (tr : String × ℕ × UniquePermEntry)
    (T : List (String × ℕ × UniquePermEntry)) :
    occT key (tr :: T) =
      (if tr.2.2.permutation = key then tr.2.2.count else 0) + occT key T := by
  rw [occT, occT]
  by_cases h : tr.2.2.permutation = key
  · rw [if_pos h, List.filter_cons_of_pos (by simpa using h)]
    simp [Nat.add_comm]
  · rw [if_neg h, List.filter_cons_of_neg (by simpa using h)]
    simp

theorem stagesT_cons (key : List ℕ) (tr : String × ℕ × UniquePermEntry)
    (T : List (String × ℕ × UniquePermEntry)) :
    stagesT key (tr :: T) =
      (if tr.2.2.permutation = key then insert tr.2.1 (stagesT key T)
       else stagesT key T) := by
  rw [stagesT, stagesT]
  by_cases h : tr.2.2.permutation = key
  · rw [if_pos h, List.filter_cons_of_pos (by simpa using h)]
    simp
  · rw [if_neg h, List.filter_cons_of_neg (by simpa using h)]

theorem foldl_flatMap {α β γ : Type} (g : α → List β) (f : γ → β → γ) :
    ∀ (l : List α) (init : γ),
      (l.flatMap g).foldl f init = l.foldl (fun acc x => (g x).foldl f acc) init := by
  intro l
  induction l with
  | nil => intro init; rfl
  | cons a rest ih =>
    intro init
    rw [List.flatMap_cons, List.foldl_append, List.foldl_cons, ih]

theorem build_families_eq_triples (ss : List SequenceSummary) :
    ss.foldl addStructure [] = (ss.flatMap mkTriples).foldl tripStep [] := by
  rw [foldl_flatMap]
  congr 1
  funext acc s
  rw [mkTriples, List.foldl_map]
  rfl


/-- Fold invariant for the `families` accumulator: keys stay nodup, a key is
present iff some processed triple introduced it, and each accumulated record
carries the key-derived id and signature, the running occurrence total and the
running stage set. -/
theorem families_fold_inv :
    ∀ (T : List (String × ℕ × UniquePermEntry))
      (fams : List (List ℕ × FamilyAcc))
      (O : List ℕ → ℕ) (S : List ℕ → Finset ℕ),
      (fams.map Prod.fst).Nodup →
      (∀ kv ∈ fams, kv.2.positionPermutation = kv.1 ∧ kv.2.id = mkFamilyId kv.1 ∧
        kv.2.cycleSignature = canonicalSig kv.1 ∧
        kv.2.occurrenceCount = O kv.1 ∧ kv.2.stages = S kv.1) →
      (∀ k, k ∉ fams.map Prod.fst → O k = 0 ∧ S k = ∅) →
      (∀ tr ∈ T, tr.2.2.cycleSignature = canonicalSig tr.2.2.permutation) →
      ((T.foldl tripStep fams).map Prod.fst).Nodup ∧
      (∀ k, k ∈ (T.foldl tripStep fams).map Prod.fst ↔
        (k ∈ fams.map Prod.fst ∨ ∃ tr ∈ T, tr.2.2.permutation = k)) ∧
      (∀ kv ∈ T.foldl tripStep fams,
        kv.2.positionPermutation = kv.1 ∧ kv.2.id = mkFamilyId kv.1 ∧
        kv.2.cycleSignature = canonicalSig kv.1 ∧
        kv.2.occurrenceCount = O kv.1 + occT kv.1 T ∧
        kv.2.stages = S kv.1 ∪ stagesT kv.1 T) := by
  intro T
  induction T with
  | nil =>
    intro fams O S hnd hvals _ _
    refine ⟨hnd, ?_, ?_⟩
    · intro k
      constructor
      · intro hk
        exact Or.inl hk
      · rintro (hk | ⟨tr, htr, _⟩)
        · exact hk
        · exact absurd htr (List.not_mem_nil tr)
    · intro kv hkv
      obtain ⟨h1, h2, h3, h4, h5⟩ := hvals kv hkv
      refine ⟨h1, h2, h3, ?_, ?_⟩
      · rw [h4, occT]
        simp
      · rw [h5, stagesT]
        simp
  | cons tr rest ih =>
    intro fams O S hnd hvals habs hwf
    obtain ⟨sid, stage, e⟩ := tr
    have hwfe : e.cycleSignature = canonicalSig e.permutation :=
      hwf (sid, stage, e) (List.mem_cons_self _ rest)
    have hwfrest : ∀ r ∈ rest, r.2.2.cycleSignature = canonicalSig r.2.2.permutation :=
      fun r hr => hwf r (List.mem_cons_of_mem _ hr)
    rw [List.foldl_cons]
    have htrip : tripStep fams (sid, stage, e) = addEntry sid stage fams e := rfl
    rw [htrip]
    set O2 : List ℕ → ℕ :=
      fun k => if k = e.permutation then O k + e.count else O k with hO2
    set S2 : List ℕ → Finset ℕ :=
      fun k => if k = e.permutation then insert stage (S k) else S k with hS2
    by_cases hmem : e.permutation ∈ fams.map Prod.fst
    · -- existing key: in-place update
      have haddeq : addEntry sid stage fams e =
          fams.map (fun kv =>
            if kv.1 = e.permutation then (kv.1, famUpdate sid stage e kv.2) else kv) := by
        rw [addEntry, if_pos hmem]
      have hfst : (addEntry sid stage fams e).map Prod.fst = fams.map Prod.fst := by
        rw [haddeq, List.map_map]
        apply List.map_congr_left
        intro kv _
        by_cases hk : kv.1 = e.permutation
        · simp [hk]
        · simp [hk]
      obtain ⟨c1, c2, c3⟩ := ih (addEntry sid stage fams e) O2 S2
        (by rw [hfst]; exact hnd)
        (by
          intro kv hkv
          rw [haddeq] at hkv
          obtain ⟨kv0, hkv0, hkveq⟩ := List.mem_map.mp hkv
          obtain ⟨h1, h2, h3, h4, h5⟩ := hvals kv0 hkv0
          by_cases hk : kv0.1 = e.permutation
          · rw [if_pos hk] at hkveq
            subst hkveq
            refine ⟨h1, h2, h3, ?_, ?_⟩
            · show kv0.2.occurrenceCount + e.count = O2 kv0.1
              rw [hO2]
              simp only [if_pos hk]
              omega
            · show insert stage kv0.2.stages = S2 kv0.1
              rw [hS2]
              simp only [if_pos hk]
              rw [h5]
          · rw [if_neg hk] at hkveq
            subst hkveq
            refine ⟨h1, h2, h3, ?_, ?_⟩
            · rw [hO2]
              simp only [if_neg hk]
              exact h4
            · rw [hS2]
              simp only [if_neg hk]
              exact h5)
        (by
          intro k hk
          rw [hfst] at hk
          have hke : k ≠ e.permutation := by
            intro he
            subst he
            exact hk hmem
          obtain ⟨ho, hs⟩ := habs k hk
          rw [hO2, hS2]
          simp only [if_neg hke]
          exact ⟨ho, hs⟩)
        hwfrest
      refine ⟨c1, ?_, ?_⟩
      · intro k
        rw [c2 k, hfst]
        constructor
        · rintro (hk | ⟨r, hr, hrk⟩)
          · exact Or.inl hk
          · exact Or.inr ⟨r, List.mem_cons_of_mem _ hr, hrk⟩
        · rintro (hk | ⟨r, hr, hrk⟩)
          · exact Or.inl hk
          · rcases List.mem_cons.mp hr with rfl | hr2
            · exact Or.inl (hrk ▸ hmem)
            · exact Or.inr ⟨r, hr2, hrk⟩
      · intro kv hkv
        obtain ⟨h1, h2, h3, h4, h5⟩ := c3 kv hkv
        refine ⟨h1, h2, h3, ?_, ?_⟩
        · rw [h4, occT_cons, hO2]
          by_cases hk : kv.1 = e.permutation
          · simp only [if_pos hk, if_pos (show e.permutation = kv.1 from hk.symm)]
            omega
          · simp only [if_neg hk, if_neg (fun he => hk ((he : e.permutation = kv.1).symm))]
            omega
        · rw [h5, stagesT_cons, hS2]
          by_cases hk : kv.1 = e.permutation
          · simp only [if_pos hk, if_pos (show e.permutation = kv.1 from hk.symm)]
            rw [Finset.insert_union, Finset.union_insert]
          · simp only [if_neg hk, if_neg (fun he => hk ((he : e.permutation = kv.1).symm))]
    · -- new key: appended at the end
      have haddeq : addEntry sid stage fams e =
          fams ++ [(e.permutation, famUpdate sid stage e (newFamily e.permutation e))] := by
        rw [addEntry, if_neg hmem]
      have hfst : (addEntry sid stage fams e).map Prod.fst =
          fams.map Prod.fst ++ [e.permutation] := by
        rw [haddeq, List.map_append]
        rfl
      obtain ⟨hO0, hS0⟩ := habs e.permutation hmem
      obtain ⟨c1, c2, c3⟩ := ih (addEntry sid stage fams e) O2 S2
        (by
          rw [hfst, List.nodup_append]
          refine ⟨hnd, List.nodup_singleton _, ?_⟩
          intro a ha hb
          rw [List.mem_singleton] at hb
          subst hb
          exact hmem ha)
        (by
          intro kv hkv
          rw [haddeq] at hkv
          rcases List.mem_append.mp hkv with hold | hnew
          · obtain ⟨h1, h2, h3, h4, h5⟩ := hvals kv hold
            have hke : kv.1 ≠ e.permutation := by
              intro he
              apply hmem
              rw [← he]
              exact List.mem_map_of_mem Prod.fst hold
            refine ⟨h1, h2, h3, ?_, ?_⟩
            · rw [hO2]
              simp only [if_neg hke]
              exact h4
            · rw [hS2]
              simp only [if_neg hke]
              exact h5
          · rw [List.mem_singleton] at hnew
            subst hnew
            refine ⟨rfl, rfl, hwfe, ?_, ?_⟩
            · show 0 + e.count = O2 e.permutation
              rw [hO2]
              simp only [eq_self_iff_true, if_true]
              omega
            · show insert stage (∅ : Finset ℕ) = S2 e.permutation
              rw [hS2]
              simp only [eq_self_iff_true, if_true]
              rw [hS0])
        (by
          intro k hk
          rw [hfst] at hk
          have hk1 : k ∉ fams.map Prod.fst := fun h => hk (List.mem_append_left _ h)
          have hke : k ≠ e.permutation := by
            intro he
            exact hk (List.mem_append_right _ (he ▸ List.mem_singleton_self _))
          obtain ⟨ho, hs⟩ := habs k hk1
          rw [hO2, hS2]
          simp only [if_neg hke]
          exact ⟨ho, hs⟩)
        hwfrest
      refine ⟨c1, ?_, ?_⟩
      · intro k
        rw [c2 k, hfst]
        constructor
        · rintro (hk | ⟨r, hr, hrk⟩)
          · rcases List.mem_append.mp hk with hk1 | hk2
            · exact Or.inl hk1
            · rw [List.mem_singleton] at hk2
              exact Or.inr ⟨(sid, stage, e), List.mem_cons_self _ _, hk2.symm⟩
          · exact Or.inr ⟨r, List.mem_cons_of_mem _ hr, hrk⟩
        · rintro (hk | ⟨r, hr, hrk⟩)
          · exact Or.inl (List.mem_append_left _ hk)
          · rcases List.mem_cons.mp hr with rfl | hr2
            · exact Or.inl (List.mem_append_right _ (hrk ▸ List.mem_singleton_self _))
            · exact Or.inr ⟨r, hr2, hrk⟩
      · intro kv hkv
        obtain ⟨h1, h2, h3, h4, h5⟩ := c3 kv hkv
        refine ⟨h1, h2, h3, ?_, ?_⟩
        · rw [h4, occT_cons, hO2]
          by_cases hk : kv.1 = e.permutation
          · simp only [if_pos hk, if_pos (show e.permutation = kv.1 from hk.symm)]
            omega
          · simp only [if_neg hk, if_neg (fun he => hk ((he : e.permutation = kv.1).symm))]
            omega
        · rw [h5, stagesT_cons, hS2]
          by_cases hk : kv.1 = e.permutation
          · simp only [if_pos hk, if_pos (show e.permutation = kv.1 from hk.symm)]
            rw [Finset.insert_union, Finset.union_insert]
          · simp only [if_neg hk, if_neg (fun he => hk ((he : e.permutation = kv.1).symm))]

theorem occT_perm (key : List ℕ) {T1 T2 : List (String × ℕ × UniquePermEntry)}
    (h : List.Perm T1 T2) : occT key T1 = occT key T2 := by
  rw [occT, occT]
  exact ((h.filter _).map _).sum_eq

theorem stagesT_perm (key : List ℕ) {T1 T2 : List (String × ℕ × UniquePermEntry)}
    (h : List.Perm T1 T2) : stagesT key T1 = stagesT key T2 := by
  rw [stagesT, stagesT]
  apply Finset.ext
  intro a
  rw [List.mem_toFinset, List.mem_toFinset]
  exact ((h.filter _).map _).mem_iff

theorem perm_of_nodup_mem_iff {α : Type} {l1 l2 : List α} (h1 : l1.Nodup)
    (h2 : l2.Nodup) (h : ∀ x, x ∈ l1 ↔ x ∈ l2) : List.Perm l1 l2 :=
  (h1.subperm fun x hx => (h x).mp hx).antisymm
    (h2.subperm fun x hx => (h x).mpr hx)

theorem triples_wf {ss : List SequenceSummary}
    (hwf : ∀ s ∈ ss, ∀ e ∈ s.uniquePerms,
      e.cycleSignature = canonicalSig e.permutation) :
    ∀ tr ∈ ss.flatMap mkTriples,
      tr.2.2.cycleSignature = canonicalSig tr.2.2.permutation := by
  intro tr htr
  rw [List.mem_flatMap] at htr
  obtain ⟨s, hs, htr2⟩ := htr
  rw [mkTriples, List.mem_map] at htr2
  obtain ⟨e, he, rfl⟩ := htr2
  exact hwf s hs e he

/-- The family fields the aggregation contract speaks about. -/
def famProj (f : Family) : List ℕ × String × String × ℕ × List ℕ :=
  (f.positionPermutation, f.id, f.cycleSignature, f.occurrenceCount, f.stages)

/-- Total occurrence count contributed to one permutation key by all summaries. -/
def occTotal (key : List ℕ) (ss : List SequenceSummary) : ℕ :=
  occT key (ss.flatMap mkTriples)

/-- Set of all stages in which one permutation key occurs. -/
def stagesTotal (key : List ℕ) (ss : List SequenceSummary) : Finset ℕ :=
  stagesT key (ss.flatMap mkTriples)

theorem build_families_spec (ss : List SequenceSummary)
    (hwf : ∀ s ∈ ss, ∀ e ∈ s.uniquePerms,
      e.cycleSignature = canonicalSig e.permutation) :
    List.Perm ((build_permutation_families ss).map famProj)
      (((ss.flatMap mkTriples).foldl tripStep []).map (fun kv =>
        (kv.1, mkFamilyId kv.1, canonicalSig kv.1, occTotal kv.1 ss,
          (stagesTotal kv.1 ss).sort (· ≤ ·)))) ∧
    (((ss.flatMap mkTriples).foldl tripStep []).map Prod.fst).Nodup ∧
    (∀ k, k ∈ ((ss.flatMap mkTriples).foldl tripStep []).map Prod.fst ↔
      ∃ s ∈ ss, ∃ e ∈ s.uniquePerms, e.permutation = k) ∧
    (∀ f ∈ build_permutation_families ss,
      f.id = mkFamilyId f.positionPermutation ∧
      f.cycleSignature = canonicalSig f.positionPermutation ∧
      f.occurrenceCount = occTotal f.positionPermutation ss ∧
      f.stages = (stagesTotal f.positionPermutation ss).sort (· ≤ ·)) ∧
    List.Sorted famLE (build_permutation_families ss) := by
  obtain ⟨c1, c2, c3⟩ := families_fold_inv (ss.flatMap mkTriples) []
    (fun _ => 0) (fun _ => ∅)
    (by simp)
    (by intro kv hkv; exact absurd hkv (List.not_mem_nil kv))
    (by intro k _; exact ⟨rfl, rfl⟩)
    (triples_wf hwf)
  have hvals : ∀ kv ∈ (ss.flatMap mkTriples).foldl tripStep [],
      kv.2.positionPermutation = kv.1 ∧ kv.2.id = mkFamilyId kv.1 ∧
      kv.2.cycleSignature = canonicalSig kv.1 ∧
      kv.2.occurrenceCount = occTotal kv.1 ss ∧
      kv.2.stages = stagesTotal kv.1 ss := by
    intro kv hkv
    obtain ⟨h1, h2, h3, h4, h5⟩ := c3 kv hkv
    refine ⟨h1, h2, h3, ?_, ?_⟩
    · rw [h4, occTotal, Nat.zero_add]
    · rw [h5, stagesTotal, Finset.empty_union]
  have hbuild : build_permutation_families ss =
      ((((ss.flatMap mkTriples).foldl tripStep []).map
        (fun kv => finalizeFam kv.2)).insertionSort famLE) := by
    rw [build_permutation_families, build_families_eq_triples]
  refine ⟨?_, c1, ?_, ?_, ?_⟩
  · -- projection of output is a permutation of the closed-form list
    rw [hbuild]
    have hp1 : List.Perm
        ((((((ss.flatMap mkTriples).foldl tripStep []).map
          (fun kv => finalizeFam kv.2)).insertionSort famLE)).map famProj)
        (((((ss.flatMap mkTriples).foldl tripStep []).map
          (fun kv => finalizeFam kv.2))).map famProj) :=
      (List.perm_insertionSort famLE _).map famProj
    refine hp1.trans ?_
    rw [List.map_map]
    have : ∀ kv ∈ (ss.flatMap mkTriples).foldl tripStep [],
        (famProj ∘ fun kv => finalizeFam kv.2) kv =
        (kv.1, mkFamilyId kv.1, canonicalSig kv.1, occTotal kv.1 ss,
          (stagesTotal kv.1 ss).sort (· ≤ ·)) := by
      intro kv hkv
      obtain ⟨h1, h2, h3, h4, h5⟩ := hvals kv hkv
      show (kv.2.positionPermutation, kv.2.id, kv.2.cycleSignature,
        kv.2.occurrenceCount, kv.2.stages.sort (· ≤ ·)) = _
      rw [h1, h2, h3, h4, h5]
    rw [List.map_congr_left this]
  · -- key membership
    intro k
    rw [c2 k]
    constructor
    · rintro (hk | ⟨tr, htr, hrk⟩)
      · exact absurd hk (by simp)
      · rw [List.mem_flatMap] at htr
        obtain ⟨s, hs, htr2⟩ := htr
        rw [mkTriples, List.mem_map] at htr2
        obtain ⟨e, he, rfl⟩ := htr2
        exact ⟨s, hs, e, he, hrk⟩
    · rintro ⟨s, hs, e, he, hek⟩
      refine Or.inr ⟨(s.id, s.stage, e), ?_, hek⟩
      rw [List.mem_flatMap]
      exact ⟨s, hs, by rw [mkTriples, List.mem_map]; exact ⟨e, he, rfl⟩⟩
  · -- per-family field formulas
    intro f hf
    rw [hbuild] at hf
    have hf2 := (List.perm_insertionSort famLE _).mem_iff.mp hf
    rw [List.mem_map] at hf2
    obtain ⟨kv, hkv, rfl⟩ := hf2
    obtain ⟨h1, h2, h3, h4, h5⟩ := hvals kv hkv
    have hpp : (finalizeFam kv.2).positionPermutation = kv.1 := h1
    refine ⟨?_, ?_, ?_, ?_⟩
    · show kv.2.id = _
      rw [h2, hpp]
    · show kv.2.cycleSignature = _
      rw [h3, hpp]
    · show kv.2.occurrenceCount = _
      rw [h4, hpp]
    · show kv.2.stages.sort (· ≤ ·) = _
      rw [h5, hpp]
  · rw [hbuild]
    exact List.sorted_insertionSort famLE _

/-- C6: the family aggregation is deduplicating and order-independent.  For
any two processing orders of the same per-sequence summaries (whose entries
carry the canonical cycle signature of their permutation), the produced family
lists agree up to order on every contractual field: families are keyed by the
position permutation, the id is derived from the permutation's concatenated
decimal digits, occurrenceCount is the total of the per-sequence counts for
that permutation, stages is the sorted set of stages in which it occurs, and
each emitted list is sorted by (cycleSignature, id). -/
theorem family_aggregation (ss1 ss2 : List SequenceSummary)
    (hperm : List.Perm ss1 ss2)
    (hwf : ∀ s ∈ ss1, ∀ e ∈ s.uniquePerms,
      e.cycleSignature = canonicalSig e.permutation) :
    List.Perm ((build_permutation_families ss1).map famProj)
      ((build_permutation_families ss2).map famProj) ∧
    (∀ f ∈ build_permutation_families ss1,
      f.id = mkFamilyId f.positionPermutation ∧
      f.cycleSignature = canonicalSig f.positionPermutation ∧
      f.occurrenceCount = occTotal f.positionPermutation ss1 ∧
      f.stages = (stagesTotal f.positionPermutation ss1).sort (· ≤ ·)) ∧
    List.Sorted famLE (build_permutation_families ss1) ∧
    List.Sorted famLE (build_permutation_families ss2) := by
  have hwf2 : ∀ s ∈ ss2, ∀ e ∈ s.uniquePerms,
      e.cycleSignature = canonicalSig e.permutation :=
    fun s hs => hwf s (hperm.mem_iff.mpr hs)
  obtain ⟨p1, nd1, mem1, fld1, srt1⟩ := build_families_spec ss1 hwf
  obtain ⟨p2, nd2, mem2, fld2, srt2⟩ := build_families_spec ss2 hwf2
  have hT : List.Perm (ss1.flatMap mkTriples) (ss2.flatMap mkTriples) :=
    hperm.flatMap_right mkTriples
  have hkeys : List.Perm (((ss1.flatMap mkTriples).foldl tripStep []).map Prod.fst)
      (((ss2.flatMap mkTriples).foldl tripStep []).map Prod.fst) := by
    apply perm_of_nodup_mem_iff nd1 nd2
    intro k
    rw [mem1 k, mem2 k]
    constructor
    · rintro ⟨s, hs, hrest⟩
      exact ⟨s, hperm.mem_iff.mp hs, hrest⟩
    · rintro ⟨s, hs, hrest⟩
      exact ⟨s, hperm.mem_iff.mpr hs, hrest⟩
  have hOeq : ∀ k, occTotal k ss1 = occTotal k ss2 :=
    fun k => occT_perm k hT
  have hSeq : ∀ k, stagesTotal k ss1 = stagesTotal k ss2 :=
    fun k => stagesT_perm k hT
  refine ⟨?_, fld1, srt1, srt2⟩
  refine p1.trans (List.Perm.trans ?_ p2.symm)
  have hmap1 : (((ss1.flatMap mkTriples).foldl tripStep []).map (fun kv =>
      (kv.1, mkFamilyId kv.1, canonicalSig kv.1, occTotal kv.1 ss1,
        (stagesTotal kv.1 ss1).sort (· ≤ ·)))) =
      ((((ss1.flatMap mkTriples).foldl tripStep []).map Prod.fst).map (fun k =>
      (k, mkFamilyId k, canonicalSig k, occTotal k ss2,
        (stagesTotal k ss2).sort (· ≤ ·)))) := by
    rw [List.map_map]
    apply List.map_congr_left
    intro kv _
    show _ = (kv.1, mkFamilyId kv.1, canonicalSig kv.1, occTotal kv.1 ss2,
      (stagesTotal kv.1 ss2).sort (· ≤ ·))
    rw [hOeq kv.1, hSeq kv.1]
  have hmap2 : (((ss2.flatMap mkTriples).foldl tripStep []).map (fun kv =>
      (kv.1, mkFamilyId kv.1, canonicalSig kv.1, occTotal kv.1 ss2,
        (stagesTotal kv.1 ss2).sort (· ≤ ·)))) =
      ((((ss2.flatMap mkTriples).foldl tripStep []).map Prod.fst).map (fun k =>
      (k, mkFamilyId k, canonicalSig k, occTotal k ss2,
        (stagesTotal k ss2).sort (· ≤ ·)))) := by
    rw [List.map_map]
    apply List.map_congr_left
    intro kv _
    rfl
  rw [hmap1, hmap2]
  exact hkeys.map _

def wEntryA : UniquePermEntry :=
  { permutation := [1, 0], cycles := [[0, 1]],
    cycleSignature := canonicalSig [1, 0], parity := "odd", sign := -1,
    swapPairs := [(0, 1)], adjacentOnly := true, count := 2 }

def wEntryB : UniquePermEntry :=
  { permutation := [1, 0], cycles := [[0, 1]],
    cycleSignature := canonicalSig [1, 0], parity := "odd", sign := -1,
    swapPairs := [(0, 1)], adjacentOnly := true, count := 3 }

def wSumA : SequenceSummary :=
  { id := "seqA", stage := 2, uniquePerms := [wEntryA] }

def wSumB : SequenceSummary :=
  { id := "seqB", stage := 3, uniquePerms := [wEntryB] }

theorem family_aggregation_witness :
    List.Perm [wSumA, wSumB] [wSumB, wSumA] ∧
    (∀ s ∈ [wSumA, wSumB], ∀ e ∈ s.uniquePerms,
      e.cycleSignature = canonicalSig e.permutation) ∧
    (List.Perm ((build_permutation_families [wSumA, wSumB]).map famProj)
        ((build_permutation_families [wSumB, wSumA]).map famProj) ∧
      (∀ f ∈ build_permutation_families [wSumA, wSumB],
        f.id = mkFamilyId f.positionPermutation ∧
        f.cycleSignature = canonicalSig f.positionPermutation ∧
        f.occurrenceCount = occTotal f.positionPermutation [wSumA, wSumB] ∧
        f.stages =
          (stagesTotal f.positionPermutation [wSumA, wSumB]).sort (· ≤ ·)) ∧
      List.Sorted famLE (build_permutation_families [wSumA, wSumB]) ∧
      List.Sorted famLE (build_permutation_families [wSumB, wSumA])) :=
  ⟨by decide, by decide,
    family_aggregation [wSumA, wSumB] [wSumB, wSumA] (by decide) (by decide)⟩
